import Mathlib

/-!
# gls: a verification development for `gls.c`

A shallow embedding of `gls.c` (a recursive directory lister that prints one
line per entry, with aggregate directory sizes and MD5 checksums) and theorems
about it.

Conventions of the embedding.

* A C string is the list of its characters before the terminating NUL
  (`CStr`).
* `long long`, `off_t` and `int` values are mathematical integers; the
  unsigned 32-bit arithmetic of `fcompute_md5_strn` is written with an
  explicit reduction modulo `2 ^ 32`.
* A function whose C original can read or write outside a buffer returns
  `none` at that point (the behaviour of the C program is undefined there).
* The system calls are the fields of a structure `Sys`; every relative path is
  resolved against the working directory of the process at the moment of the
  call, which `chdir` changes only when it succeeds. `treeSys` is the instance
  for a finite directory tree.
* The two recursive traversals take a bound on the depth of the recursion
  (fuel) and return `none` when it is used up.
* The traversals save the working directory with `opendir(".")` and do not
  test the result; when it is `NULL` they return `none` at
  `fchdir(dirfd(dir_save))`, where the C program calls `dirfd(NULL)`.
* Standard output is the text printed so far; global function pointers are
  parameters (`FilterFn`, `ByteFormatter`).
-/

namespace Gls

/-- A C string: the characters before the terminating NUL. -/
abbrev CStr := List Char

/-! ## libc primitives used by the formatters -/

/-- The text `printf("%lld", v)` prints. -/
def fmt_lld (v : Int) : CStr :=
  if v < 0 then '-' :: Nat.toDigits 10 v.natAbs else Nat.toDigits 10 v.natAbs

/-- The text `printf("%d", v)` prints for a non-negative `v`. -/
def fmt_d (v : Nat) : CStr := Nat.toDigits 10 v

/-- The string `snprintf(buf, size, ...)` leaves in `buf` when the complete
formatted text is `text`: at most `size - 1` characters are stored. -/
def snprintf (size : Nat) (text : CStr) : CStr := text.take (size - 1)

/-- `strncmp(a, b, n)`: compares at most `n` characters, the terminator of the
shorter string included. -/
def strncmp : CStr → CStr → Nat → Int
  | _, _, 0 => 0
  | [], [], _ + 1 => 0
  | [], b :: _, _ + 1 => 0 - (b.toNat : Int)
  | a :: _, [], _ + 1 => (a.toNat : Int)
  | a :: as, b :: bs, n + 1 =>
    if a = b then strncmp as bs n else (a.toNat : Int) - (b.toNat : Int)

/-! ## `d_type` codes of `<dirent.h>` -/

def DT_UNKNOWN : Nat := 0
def DT_FIFO : Nat := 1
def DT_CHR : Nat := 2
def DT_DIR : Nat := 4
def DT_BLK : Nat := 6
def DT_REG : Nat := 8
def DT_LNK : Nat := 10
def DT_SOCK : Nat := 12

/-- `file_type_str` (gls.c:114). -/
def file_type_str (f_type : Nat) : CStr :=
  if f_type = DT_REG then "regular file".toList
  else if f_type = DT_DIR then "directory".toList
  else if f_type = DT_FIFO then "fifo (named pipe)".toList
  else if f_type = DT_LNK then "symbolic link".toList
  else if f_type = DT_CHR then "character special device".toList
  else if f_type = DT_BLK then "block special device".toList
  else if f_type = DT_SOCK then "UNIX domain socket".toList
  else "unknown".toList

/-! ## Filters (gls.c:163, gls.c:175) -/

/-- `filter_hidden`: 0 when `d_name[0] == '.'`, 1 otherwise. The first
character of the empty name is the terminator, which is not `'.'`. -/
def filter_hidden (d_name : CStr) : Int :=
  if d_name.head? = some '.' then 0 else 1

/-- `filter_show_hidden`: 0 when the name compares equal to "." over 2
characters or to ".." over 3 characters, 1 otherwise. -/
def filter_show_hidden (d_name : CStr) : Int :=
  if strncmp d_name ".".toList 2 = 0 ∨ strncmp d_name "..".toList 3 = 0 then 0 else 1

/-- The two values the global `filter_function` takes (gls.c:96, 651, 696). -/
inductive FilterFn where
  | filter_hidden
  | filter_show_hidden
  deriving DecidableEq, Repr

/-- Calling through the function pointer. -/
def FilterFn.call : FilterFn → CStr → Int
  | .filter_hidden => Gls.filter_hidden
  | .filter_show_hidden => Gls.filter_show_hidden

/-! ## Byte formatters (gls.c:200, gls.c:225) -/

/-- `byte_format_identity`: `snprintf(ident_str, 20, "%lld", num_bytes)`. -/
def byte_format_identity (num_bytes : Int) : CStr :=
  snprintf 20 (fmt_lld num_bytes)

/-- The suffix table of `byte_format_human`. -/
def size_suffixes : List CStr :=
  ["B".toList, "KB".toList, "MB".toList, "GB".toList, "TB".toList]

/-- The `for` loop of `byte_format_human` (gls.c:236): while
`num_bytes >= 1000`, keep `num_bytes % 1000` and divide by 1000, counting the
divisions. The fuel bounds the number of iterations; `num_bytes` itself is
always enough. Returns `(num_bytes, size_index, remainder)`. -/
def byte_format_human_loop : Nat → Int → Nat → Nat → Int × Nat × Nat
  | 0, num_bytes, size_index, remainder => (num_bytes, size_index, remainder)
  | fuel + 1, num_bytes, size_index, remainder =>
    if num_bytes ≥ 1000 then
      byte_format_human_loop fuel (num_bytes.tdiv 1000) (size_index + 1)
        (num_bytes.tmod 1000).toNat
    else (num_bytes, size_index, remainder)

/-- `byte_format_human` (gls.c:225). `none` when `size_index` is outside the
five-entry table `size_suffixes`, where the C code reads past the array. -/
def byte_format_human (num_bytes : Int) : Option CStr :=
  match byte_format_human_loop num_bytes.toNat num_bytes 0 0 with
  | (nb, size_index, remainder) =>
    match size_suffixes[size_index]? with
    | none => none
    | some suffix =>
      if remainder < 100 then some (snprintf 8 (fmt_lld nb ++ suffix))
      else some (snprintf 8 (fmt_lld nb ++ '.' :: fmt_d (remainder / 100) ++ suffix))

/-- The two values the global `byte_formatter` takes (gls.c:99, 652, 702). -/
inductive ByteFormatter where
  | byte_format_identity
  | byte_format_human
  deriving DecidableEq, Repr

/-- Calling through the function pointer. -/
def ByteFormatter.call : ByteFormatter → Int → Option CStr
  | .byte_format_identity => fun v => some (Gls.byte_format_identity v)
  | .byte_format_human => Gls.byte_format_human

/-! ## Hex rendering of the digest (gls.c:453-474) -/

def MD5_DIGEST_LENGTH : Nat := 16

def hex_table : CStr := "0123456789abcdef".toList

/-- `hex_table[(b >> 4) & 0xF]`. -/
def hex_hi (b : Nat) : Char := hex_table.getD ((b >>> 4) &&& 0xF) '\x00'

/-- `hex_table[b & 0xF]`. -/
def hex_lo (b : Nat) : Char := hex_table.getD (b &&& 0xF) '\x00'

/-- The modulus of `unsigned int` arithmetic, `2 ^ 32`. -/
def UINT_MOD : Nat := 4294967296

/-- The loop `for(i=0; i < MD5_DIGEST_LENGTH && i*2 < n-2; i++)` of
`fcompute_md5_strn`. The comparison `i*2 < n-2` is made in `unsigned int`, so
both sides are taken modulo `2 ^ 32`. Returns the final `i` and the characters
stored so far. The loop runs at most `MD5_DIGEST_LENGTH` times, which is the
fuel `md5_hex_written` gives it. -/
def md5_hex_loop (md5_bytes : List Nat) (n : Nat) : Nat → Nat → CStr → Nat × CStr
  | 0, i, written => (i, written)
  | fuel + 1, i, written =>
    if i < MD5_DIGEST_LENGTH ∧ (i * 2) % UINT_MOD < (n + UINT_MOD - 2) % UINT_MOD then
      md5_hex_loop md5_bytes n fuel (i + 1)
        (written ++ [hex_hi (md5_bytes.getD i 0), hex_lo (md5_bytes.getD i 0)])
    else (i, written)

/-- What follows the loop (gls.c:468-472): one more hex digit when
`i < MD5_DIGEST_LENGTH && i*2 < n-1` (again in `unsigned int`), then the
terminator. -/
def md5_hex_finish (md5_bytes : List Nat) (n : Nat) (i : Nat) (written : CStr) : CStr :=
  if i < MD5_DIGEST_LENGTH ∧ (i * 2) % UINT_MOD < (n + UINT_MOD - 1) % UINT_MOD then
    written ++ [hex_hi (md5_bytes.getD i 0)] ++ ['\x00']
  else written ++ ['\x00']

/-- The characters `fcompute_md5_strn` stores through `md5_str` after the
digest is known, in the order they are stored, the terminating NUL included
(gls.c:456-472). `n` is the capacity the caller announces. -/
def md5_hex_written (md5_bytes : List Nat) (n : Nat) : CStr :=
  md5_hex_finish md5_bytes n (md5_hex_loop md5_bytes n MD5_DIGEST_LENGTH 0 []).1
    (md5_hex_loop md5_bytes n MD5_DIGEST_LENGTH 0 []).2

/-- The C string left in the buffer: what was stored, up to the terminator. -/
def md5_hex_string (md5_bytes : List Nat) (n : Nat) : CStr :=
  (md5_hex_written md5_bytes n).dropLast

/-- The 32-character lowercase hex encoding of a digest: byte `i` gives
character `2i` from its high nibble and character `2i+1` from its low
nibble. Written from the specification, for comparison with the code. -/
def hex_encoding (md5_bytes : List Nat) : CStr :=
  md5_bytes.flatMap fun b => [hex_table.getD (b / 16) '\x00', hex_table.getD (b % 16) '\x00']


/-! ## The operating system as the traversal sees it -/

/-- A directory entry as `scandir` hands it over: the two fields of
`struct dirent` the program reads. -/
structure Dirent where
  d_name : CStr
  d_type : Nat
  deriving DecidableEq, Repr

/-- The system calls the two traversals make. `W` is the type of working
directories; every relative path is resolved against the working directory of
the moment of the call. Error results carry the text of `strerror(errno)`.

`opendir(".")`, by which the traversals save the working directory, fails
when "." cannot be opened for reading (see `opendir_dot`); the traversals do
not test its result. `fchdir` on a descriptor that `opendir(".")` returned is
taken to succeed, and the file system not to change during a run. -/
structure Sys (W : Type) where
  /-- The entries of the directory `path` names, "." and ".." included, in
  `alphasort` order; an error when the directory cannot be opened for
  reading. -/
  readdir : W → CStr → Except CStr (List Dirent)
  /-- The working directory after a successful `chdir(path)`; `none` when
  `chdir` fails, which leaves the working directory as it was. -/
  chdir : W → CStr → Option W
  /-- The field `st_size` of `stat(path)`. -/
  stat : W → CStr → Except CStr Int
  /-- Whether `lstat(path)` succeeds. -/
  lstat : W → CStr → Except CStr Unit
  /-- The text `readlink(path)` stores. -/
  readlink : W → CStr → Except CStr CStr
  /-- The result of `realpath(path, NULL)`. -/
  realpath : W → CStr → Except CStr CStr
  /-- The MD5 digest of the content of the file `path`, as the first part of
  `fcompute_md5_strn` (gls.c:411-451) obtains it; on failure the text of
  `strerror(errno)`, or `none` when `errno` is 0 (a failure of the hash
  functions). -/
  md5 : W → CStr → Except (Option CStr) (List Nat)
  /-- The content of memory that was allocated and not yet written. -/
  junk : Int

/-- `scandir(dir_path, &entries, filter, alphasort)`: the entries the filter
accepts (a non-zero result), in `alphasort` order. -/
def scandir {W : Type} (sys : Sys W) (cwd : W) (dir_path : CStr) (filter : CStr → Int) :
    Except CStr (List Dirent) :=
  match sys.readdir cwd dir_path with
  | .error msg => .error msg
  | .ok entries => .ok (entries.filter fun e => filter e.d_name != 0)

/-- `opendir(".")`: the directory stream, given as the directory it is open
on, which is the working directory of the moment; `none` for `NULL`, when "."
cannot be opened for reading (which is when its entries cannot be read). -/
def opendir_dot {W : Type} (sys : Sys W) (cwd : W) : Option W :=
  match sys.readdir cwd ".".toList with
  | .ok _ => some cwd
  | .error _ => none

/-! ## The size pass: `compute_dir_size_r`, `compute_dir_size` (gls.c:275, 379) -/

/-- What `compute_dir_size_r` reaches through its pointer arguments, and the
working directory of the process. `sizes` is the array `*pdir_sizes` (its
length is the number of elements allocated), `dir_index` is `*dir_index`,
`array_size` is `*array_size`. -/
structure CState (W : Type) where
  sizes : List Int
  dir_index : Nat
  array_size : Nat
  cwd : W

/-- `realloc(p, sizeof(off_t) * n)`: the first `n` elements are kept, new
elements are not initialised. -/
def realloc (sizes : List Int) (n : Nat) (junk : Int) : List Int :=
  sizes.take n ++ List.replicate (n - sizes.length) junk

/-- `sizes[i] = v`; `none` when `i` is outside the array. -/
def store_at (sizes : List Int) (i : Nat) (v : Int) : Option (List Int) :=
  if i < sizes.length then some (sizes.set i v) else none

/-- `sizes[i] += v`; `none` when `i` is outside the array. -/
def add_at (sizes : List Int) (i : Nat) (v : Int) : Option (List Int) :=
  match sizes[i]? with
  | some old => some (sizes.set i (old + v))
  | none => none

/-- The `for` loop of `compute_dir_size_r` over the entries `scandir`
returned (gls.c:315-357). `recurse` stands for the recursive call of
`compute_dir_size_r`. -/
def compute_dir_size_loop {W : Type} (sys : Sys W) (filter_function : FilterFn)
    (recurse : CStr → CState W → Bool → Option (CState W))
    (cur_index : Nat) (dont_store : Bool) : List Dirent → CState W → Option (CState W)
  | [], st => some st
  | current_dirent :: rest, st =>
    if current_dirent.d_type = DT_DIR then
      if (current_dirent.d_name.head? = some '.' ∧ filter_function = FilterFn.filter_hidden)
          ∨ dont_store = true then
        -- int local_index = 0; off_t* subdir_size = alloca(sizeof(off_t));
        match recurse current_dirent.d_name
            { sizes := [sys.junk], dir_index := 0, array_size := st.array_size, cwd := st.cwd }
            true with
        | none => none
        | some sub =>
          match sub.sizes[0]? with
          | none => none
          | some subdir_size =>
            match add_at st.sizes cur_index subdir_size with
            | none => none
            | some sizes =>
              compute_dir_size_loop sys filter_function recurse cur_index dont_store rest
                { sizes := sizes, dir_index := st.dir_index, array_size := sub.array_size,
                  cwd := sub.cwd }
      else
        -- int r_index = ++(*dir_index);
        let r_index := st.dir_index + 1
        match recurse current_dirent.d_name { st with dir_index := r_index } false with
        | none => none
        | some st1 =>
          match st1.sizes[r_index]? with
          | none => none
          | some subdir_size =>
            match add_at st1.sizes cur_index subdir_size with
            | none => none
            | some sizes =>
              compute_dir_size_loop sys filter_function recurse cur_index dont_store rest
                { st1 with sizes := sizes }
    else if current_dirent.d_type = DT_REG then
      match sys.stat st.cwd current_dirent.d_name with
      | .error _ =>
        compute_dir_size_loop sys filter_function recurse cur_index dont_store rest st
      | .ok st_size =>
        match add_at st.sizes cur_index st_size with
        | none => none
        | some sizes =>
          compute_dir_size_loop sys filter_function recurse cur_index dont_store rest
            { st with sizes := sizes }
    else compute_dir_size_loop sys filter_function recurse cur_index dont_store rest st

/-- `compute_dir_size_r` (gls.c:275). The first argument bounds the depth of
the recursion; `none` when it is used up, when the C code accesses an array
outside its bounds, or when it reaches `dirfd(dir_save)` with the `NULL` that a
failed `opendir(".")` left in `dir_save`. -/
def compute_dir_size_r {W : Type} (sys : Sys W) (filter_function : FilterFn) :
    Nat → CStr → CState W → Bool → Option (CState W)
  | 0, _, _, _ => none
  | fuel + 1, dir_path, st, dont_store =>
    let cur_index := st.dir_index
    -- if(*dir_index >= *array_size) { *array_size *= 2; realloc }
    let st1 : CState W :=
      if st.dir_index ≥ st.array_size then
        { st with array_size := st.array_size * 2,
                  sizes := realloc st.sizes (st.array_size * 2) sys.junk }
      else st
    -- (*pdir_sizes)[cur_index] = 0;
    match store_at st1.sizes cur_index 0 with
    | none => none
    | some sizes =>
      let st2 : CState W := { st1 with sizes := sizes }
      match scandir sys st2.cwd dir_path Gls.filter_show_hidden with
      | .error _ => some st2
      | .ok [] => some st2
      | .ok (e :: entries) =>
        -- DIR* dir_save = opendir(".");   (NULL when it fails, not tested)
        let dir_save : Option W := opendir_dot sys st2.cwd
        -- chdir(dir_path);
        let st3 : CState W := { st2 with cwd := (sys.chdir st2.cwd dir_path).getD st2.cwd }
        match compute_dir_size_loop sys filter_function
            (fun p s d => compute_dir_size_r sys filter_function fuel p s d)
            cur_index dont_store (e :: entries) st3 with
        | none => none
        | some st4 =>
          -- fchdir(dirfd(dir_save));   (dirfd(NULL) is undefined)
          match dir_save with
          | none => none
          | some saved => some { st4 with cwd := saved }

/-- `compute_dir_size` (gls.c:379): ten zeroed elements, index 0. The result
holds the array the C function returns. -/
def compute_dir_size {W : Type} (sys : Sys W) (filter_function : FilterFn)
    (fuel : Nat) (cwd : W) (dir_path : CStr) : Option (CState W) :=
  compute_dir_size_r sys filter_function fuel dir_path
    { sizes := List.replicate 10 0, dir_index := 0, array_size := 10, cwd := cwd } false

/-! ## The print pass: `parse_directory_r`, `parse_directory` (gls.c:489, 636) -/

/-- What `parse_directory_r` reaches besides its value arguments: the text
written to standard output so far, `*dir_index`, and the working directory of
the process. -/
structure PState (W : Type) where
  out : CStr
  dir_index : Nat
  cwd : W

/-- The indentation printed before an entry or before the empty-directory
marker (gls.c:510-514, 535-539): `cur_depth*3` copies of `fill` when
`cur_depth >= 1`, nothing otherwise. -/
def indentation (cur_depth : Nat) (fill : Char) : CStr :=
  if cur_depth ≥ 1 then List.replicate (cur_depth * 3) fill else []

/-- `fcompute_md5_strn(path, blk_size, md5_str, n)` (gls.c:410): the error of
the digest computation, or the string the hex rendering leaves in `md5_str`. -/
def fcompute_md5_strn {W : Type} (sys : Sys W) (cwd : W) (path : CStr) (n : Nat) :
    Except (Option CStr) CStr :=
  match sys.md5 cwd path with
  | .error e => .error e
  | .ok md5_bytes => .ok (md5_hex_string md5_bytes n)

/-- The line printed for a regular file (gls.c:546-577); `none` when
`byte_formatter` reads outside its table. -/
def regular_file_line {W : Type} (sys : Sys W) (byte_formatter : ByteFormatter) (cwd : W)
    (d_name : CStr) (d_type : Nat) : Option CStr :=
  match sys.stat cwd d_name with
  | .error msg =>
    some ("| ".toList ++ d_name ++ " (".toList ++ file_type_str d_type
      ++ " - error parsing file: ".toList ++ msg ++ ")\n".toList)
  | .ok st_size =>
    match byte_formatter.call st_size with
    | none => none
    | some size_str =>
      match fcompute_md5_strn sys cwd d_name (MD5_DIGEST_LENGTH * 2 + 1) with
      | .ok md5_str =>
        some ("| ".toList ++ d_name ++ " (".toList ++ file_type_str d_type ++ " - ".toList
          ++ size_str ++ " - ".toList ++ md5_str ++ ")\n".toList)
      | .error e =>
        some ("| ".toList ++ d_name ++ " (".toList ++ file_type_str d_type ++ " - ".toList
          ++ size_str ++ " - error computing md5: ".toList
          ++ (match e with | none => "hash error".toList | some msg => msg) ++ ")\n".toList)

/-- The line printed for a symbolic link (gls.c:578-613). -/
def symlink_line {W : Type} (sys : Sys W) (cwd : W) (d_name : CStr) (d_type : Nat) : CStr :=
  match sys.lstat cwd d_name with
  | .error msg =>
    "| ".toList ++ d_name ++ " (".toList ++ file_type_str d_type
      ++ " - error parsing symlink: ".toList ++ msg ++ ")\n".toList
  | .ok _ =>
    match sys.readlink cwd d_name with
    | .error msg =>
      "| ".toList ++ d_name ++ " (".toList ++ file_type_str d_type
        ++ " - error reading symlink: ".toList ++ msg ++ ")\n".toList
    | .ok symlink_name =>
      match sys.realpath cwd d_name with
      | .error msg =>
        "| ".toList ++ d_name ++ " (".toList ++ file_type_str d_type
          ++ " - error resolving symlink: ".toList ++ msg ++ ")\n".toList
      | .ok absolute_path =>
        "| ".toList ++ d_name ++ " (".toList ++ file_type_str d_type ++ " - points to '".toList
          ++ symlink_name ++ "', absolute path : '".toList ++ absolute_path ++ "')\n".toList

/-- The `for` loop of `parse_directory_r` over the entries `scandir` returned
(gls.c:531-617). `recurse` stands for the recursive call of
`parse_directory_r` with `dir_sizes` and `cur_depth+1`. -/
def parse_directory_loop {W : Type} (sys : Sys W) (byte_formatter : ByteFormatter)
    (recurse : CStr → PState W → Option (PState W)) (cur_depth : Nat) :
    List Dirent → PState W → Option (PState W)
  | [], st => some st
  | current_dirent :: rest, st =>
    let fill : Char := if current_dirent.d_type = DT_DIR then '-' else ' '
    let st1 : PState W := { st with out := st.out ++ indentation cur_depth fill }
    if current_dirent.d_type = DT_DIR then
      -- (*dir_index)++; parse_directory_r(d_name, dir_sizes, dir_index, cur_depth+1);
      match recurse current_dirent.d_name { st1 with dir_index := st1.dir_index + 1 } with
      | none => none
      | some st2 => parse_directory_loop sys byte_formatter recurse cur_depth rest st2
    else if current_dirent.d_type = DT_REG then
      match regular_file_line sys byte_formatter st1.cwd current_dirent.d_name
          current_dirent.d_type with
      | none => none
      | some line =>
        parse_directory_loop sys byte_formatter recurse cur_depth rest
          { st1 with out := st1.out ++ line }
    else if current_dirent.d_type = DT_LNK then
      parse_directory_loop sys byte_formatter recurse cur_depth rest
        { st1 with out := st1.out
            ++ symlink_line sys st1.cwd current_dirent.d_name current_dirent.d_type }
    else
      parse_directory_loop sys byte_formatter recurse cur_depth rest
        { st1 with out := st1.out ++ "| ".toList ++ current_dirent.d_name ++ " (".toList
            ++ file_type_str current_dirent.d_type ++ ")\n".toList }

/-- `parse_directory_r` (gls.c:489). The first argument bounds the depth of
the recursion; `none` when it is used up, when `dir_sizes` is read outside its
bounds, when `byte_formatter` reads outside its table, or when the C code
reaches `dirfd(dir_save)` with the `NULL` that a failed `opendir(".")` left in
`dir_save`. -/
def parse_directory_r {W : Type} (sys : Sys W) (filter_function : FilterFn)
    (byte_formatter : ByteFormatter) :
    Nat → CStr → List Int → PState W → Nat → Option (PState W)
  | 0, _, _, _, _ => none
  | fuel + 1, dir_path, dir_sizes, st, cur_depth =>
    match scandir sys st.cwd dir_path filter_function.call with
    | .error msg =>
      some { st with out := st.out ++ "| ".toList ++ dir_path
        ++ " (directory - error parsing directory: ".toList ++ msg ++ ")\n".toList }
    | .ok entries =>
      -- the header line, for directories other than the root
      let header : Option CStr :=
        if cur_depth ≥ 1 then
          match dir_sizes[st.dir_index]? with
          | none => none
          | some size =>
            match byte_formatter.call size with
            | none => none
            | some size_str =>
              some ("| ".toList ++ dir_path ++ " (directory - ".toList ++ size_str
                ++ ")\n".toList)
        else some []
      match header with
      | none => none
      | some text =>
        let st1 : PState W := { st with out := st.out ++ text }
        match entries with
        | [] =>
          some { st1 with out := st1.out ++ indentation cur_depth ' '
            ++ "*** empty directory ***\n".toList }
        | e :: es =>
          -- DIR* dir_save = opendir(".");   (NULL when it fails, not tested)
          let dir_save : Option W := opendir_dot sys st1.cwd
          -- chdir(dir_path);
          let st2 : PState W := { st1 with cwd := (sys.chdir st1.cwd dir_path).getD st1.cwd }
          match parse_directory_loop sys byte_formatter
              (fun p s => parse_directory_r sys filter_function byte_formatter fuel p dir_sizes s
                (cur_depth + 1))
              cur_depth (e :: es) st2 with
          | none => none
          | some st3 =>
            -- fchdir(dirfd(dir_save));   (dirfd(NULL) is undefined)
            match dir_save with
            | none => none
            | some saved => some { st3 with cwd := saved }

/-- `parse_directory` (gls.c:636): the size pass, then the print pass with
the cursor at 0 and depth 0. `out` is what standard output holds before. -/
def parse_directory {W : Type} (sys : Sys W) (filter_function : FilterFn)
    (byte_formatter : ByteFormatter) (fuel : Nat) (cwd : W) (out : CStr) (dir_path : CStr) :
    Option (PState W) :=
  match compute_dir_size sys filter_function fuel cwd dir_path with
  | none => none
  | some c =>
    parse_directory_r sys filter_function byte_formatter fuel dir_path c.sizes
      { out := out, dir_index := 0, cwd := c.cwd } 0

/-! ## A file system given as a finite tree -/

/-- A node of a finite directory tree. A directory carries whether it can be
opened for reading (`scandir` succeeds) and whether it can be searched
(`chdir` into it and lookups through it succeed), and its entries, apart from
"." and "..", in `alphasort` order. A regular file carries what `stat`
reports for it (`none` when `stat` fails) and its digest. -/
inductive Node where
  | reg (st_size : Option Int) (digest : Option (List Nat))
  | lnk (target : Option CStr) (absolute : Option CStr)
  | other (d_type : Nat)
  | dir (readable searchable : Bool) (entries : List (CStr × Node))

/-- The `d_type` a directory entry for this node carries. -/
def Node.d_type : Node → Nat
  | .reg _ _ => DT_REG
  | .lnk _ _ => DT_LNK
  | .other t => t
  | .dir _ _ _ => DT_DIR

/-- Resolving the relative path `path` when the working directory is `cwd`:
"." is `cwd` itself, a name is looked up among the entries of `cwd`, which
must be searchable. -/
def Node.resolve (cwd : Node) (path : CStr) : Option Node :=
  if path = ".".toList then some cwd
  else
    match cwd with
    | .dir _ true entries => entries.lookup path
    | _ => none

/-- What `readdir` delivers for a directory with these entries: "." and
"..", then one entry per node. -/
def tree_dirents (entries : List (CStr × Node)) : List Dirent :=
  { d_name := ".".toList, d_type := DT_DIR } ::
  { d_name := "..".toList, d_type := DT_DIR } ::
  entries.map fun e => { d_name := e.1, d_type := e.2.d_type }

/-- Listing on a tree: the directory must be readable. -/
def tree_readdir (cwd : Node) (path : CStr) : Except CStr (List Dirent) :=
  match cwd.resolve path with
  | some (.dir true _ entries) => .ok (tree_dirents entries)
  | some (.dir false _ _) => .error "Permission denied".toList
  | some _ => .error "Not a directory".toList
  | none => .error "No such file or directory".toList

/-- `chdir` on a tree: the directory must be searchable. -/
def tree_chdir (cwd : Node) (path : CStr) : Option Node :=
  match cwd.resolve path with
  | some (.dir r true entries) => some (.dir r true entries)
  | _ => none

/-- `stat` on a tree: the size a regular file carries; a directory has size
4096. -/
def tree_stat (cwd : Node) (path : CStr) : Except CStr Int :=
  match cwd.resolve path with
  | some (.reg (some st_size) _) => .ok st_size
  | some (.dir _ _ _) => .ok 4096
  | some _ => .error "Permission denied".toList
  | none => .error "No such file or directory".toList

/-- `lstat` on a tree. -/
def tree_lstat (cwd : Node) (path : CStr) : Except CStr Unit :=
  match cwd.resolve path with
  | some _ => .ok ()
  | none => .error "No such file or directory".toList

/-- `readlink` on a tree. -/
def tree_readlink (cwd : Node) (path : CStr) : Except CStr CStr :=
  match cwd.resolve path with
  | some (.lnk (some target) _) => .ok target
  | some _ => .error "Invalid argument".toList
  | none => .error "No such file or directory".toList

/-- `realpath` on a tree. -/
def tree_realpath (cwd : Node) (path : CStr) : Except CStr CStr :=
  match cwd.resolve path with
  | some (.lnk _ (some absolute)) => .ok absolute
  | _ => .error "No such file or directory".toList

/-- The digest of a file on a tree. -/
def tree_md5 (cwd : Node) (path : CStr) : Except (Option CStr) (List Nat) :=
  match cwd.resolve path with
  | some (.reg _ (some digest)) => .ok digest
  | some _ => .error (some "Permission denied".toList)
  | none => .error (some "No such file or directory".toList)

/-- The system calls on a tree; the working directory is the node the process
is in. -/
def treeSys : Sys Node where
  readdir := tree_readdir
  chdir := tree_chdir
  stat := tree_stat
  lstat := tree_lstat
  readlink := tree_readlink
  realpath := tree_realpath
  md5 := tree_md5
  junk := 0

/-! ## The totals and the slot sequence the specification describes -/

/-- The aggregate size of a node as the specification states it: for a
directory whose listing succeeds, the sizes of the regular files directly
inside it whose `stat` succeeds plus the aggregate sizes of its
subdirectories; 0 for a directory whose listing fails; a regular file counts
with its size when `stat` succeeds, every other entry with 0. Written from
the specification, for comparison with the code. -/
def specTotal : Node → Int
  | .reg (some st_size) _ => st_size
  | .reg none _ => 0
  | .lnk _ _ => 0
  | .other _ => 0
  | .dir readable _ entries => if readable then go entries else 0
where
  /-- The sum over the entries of a directory. -/
  go : List (CStr × Node) → Int
    | [] => 0
    | (_, n) :: rest => specTotal n + go rest

/-- The slot sequence the specification states for a directory: its own
total, then, for each directory-typed entry in listing order that the filter
shows, the slots of that subdirectory. Written from the specification, for
comparison with the code. -/
def specSlots (filter_function : FilterFn) : Node → List Int
  | .dir readable searchable entries =>
    specTotal (.dir readable searchable entries) ::
      (if readable then go entries else [])
  | _ => []
where
  /-- The slots of the subdirectories among the entries. -/
  go : List (CStr × Node) → List Int
    | [] => []
    | (name, .dir r x es) :: rest =>
      (if filter_function.call name ≠ 0 then specSlots filter_function (.dir r x es) else [])
        ++ go rest
    | _ :: rest => go rest

/-! ## Reference walks, for comparison with the two passes -/

/-- The loop of `dir_totals`: `acc` holds the total of the current directory
so far and the totals of the directories below it that got a slot so far. -/
def dir_totals_loop {W : Type} (sys : Sys W) (filter_function : FilterFn)
    (recurse : CStr → Bool → Option (Int × List Int)) (cwd : W) (dont_store : Bool) :
    List Dirent → Int × List Int → Option (Int × List Int)
  | [], acc => some acc
  | e :: rest, acc =>
    if e.d_type = DT_DIR then
      if (e.d_name.head? = some '.' ∧ filter_function = FilterFn.filter_hidden)
          ∨ dont_store = true then
        match recurse e.d_name true with
        | none => none
        | some sub =>
          dir_totals_loop sys filter_function recurse cwd dont_store rest
            (acc.1 + sub.1, acc.2)
      else
        match recurse e.d_name false with
        | none => none
        | some sub =>
          dir_totals_loop sys filter_function recurse cwd dont_store rest
            (acc.1 + sub.1, acc.2 ++ sub.1 :: sub.2)
    else if e.d_type = DT_REG then
      match sys.stat cwd e.d_name with
      | .error _ => dir_totals_loop sys filter_function recurse cwd dont_store rest acc
      | .ok st_size =>
        dir_totals_loop sys filter_function recurse cwd dont_store rest
          (acc.1 + st_size, acc.2)
    else dir_totals_loop sys filter_function recurse cwd dont_store rest acc

/-- The size pass without its array: the total of the directory `dir_path`
names from `cwd`, and, in pre-order, the totals of the directories below it
that get a slot. Names are resolved as the C code resolves them, against the
working directory after `chdir(dir_path)` (or the old one when `chdir`
fails). `none` when the fuel does not cover the depth of the recursion, or
when a directory with entries is walked from a working directory that
`opendir(".")` cannot open (where the C code ends in `dirfd(NULL)`). -/
def dir_totals {W : Type} (sys : Sys W) (filter_function : FilterFn) :
    Nat → W → CStr → Bool → Option (Int × List Int)
  | 0, _, _, _ => none
  | fuel + 1, cwd, dir_path, dont_store =>
    match scandir sys cwd dir_path Gls.filter_show_hidden with
    | .error _ => some (0, [])
    | .ok [] => some (0, [])
    | .ok (e :: entries) =>
      match dir_totals_loop sys filter_function
          (fun p d => dir_totals sys filter_function fuel ((sys.chdir cwd dir_path).getD cwd) p d)
          ((sys.chdir cwd dir_path).getD cwd) dont_store (e :: entries) (0, []) with
      | none => none
      | some r =>
        match opendir_dot sys cwd with
        | none => none
        | some _ => some r

/-- The value `compute_dir_size` records at index 0 for the directory
`dir_path` names from `cwd`: the aggregate size the size pass computes for
that directory. -/
def recorded_total {W : Type} (sys : Sys W) (filter_function : FilterFn)
    (fuel : Nat) (cwd : W) (dir_path : CStr) : Option Int :=
  match compute_dir_size sys filter_function fuel cwd dir_path with
  | none => none
  | some c => c.sizes[0]?

/-- The print pass with the size sequence and its cursor taken out of the
header line: the size shown for a directory is `recorded_total` of that very
directory. Everything else is `parse_directory_r`. -/
def print_with_totals_r {W : Type} (sys : Sys W) (filter_function : FilterFn)
    (byte_formatter : ByteFormatter) :
    Nat → CStr → PState W → Nat → Option (PState W)
  | 0, _, _, _ => none
  | fuel + 1, dir_path, st, cur_depth =>
    match scandir sys st.cwd dir_path filter_function.call with
    | .error msg =>
      some { st with out := st.out ++ "| ".toList ++ dir_path
        ++ " (directory - error parsing directory: ".toList ++ msg ++ ")\n".toList }
    | .ok entries =>
      let header : Option CStr :=
        if cur_depth ≥ 1 then
          match recorded_total sys filter_function (fuel + 1) st.cwd dir_path with
          | none => none
          | some size =>
            match byte_formatter.call size with
            | none => none
            | some size_str =>
              some ("| ".toList ++ dir_path ++ " (directory - ".toList ++ size_str
                ++ ")\n".toList)
        else some []
      match header with
      | none => none
      | some text =>
        let st1 : PState W := { st with out := st.out ++ text }
        match entries with
        | [] =>
          some { st1 with out := st1.out ++ indentation cur_depth ' '
            ++ "*** empty directory ***\n".toList }
        | e :: es =>
          let dir_save : Option W := opendir_dot sys st1.cwd
          let st2 : PState W := { st1 with cwd := (sys.chdir st1.cwd dir_path).getD st1.cwd }
          match parse_directory_loop sys byte_formatter
              (fun p s => print_with_totals_r sys filter_function byte_formatter fuel p s
                (cur_depth + 1))
              cur_depth (e :: es) st2 with
          | none => none
          | some st3 =>
            match dir_save with
            | none => none
            | some saved => some { st3 with cwd := saved }

/-- A directory `root` that holds the directory `d`, which can be read but
not searched (mode `r--`), and the regular file `f` of 7 bytes; `d` holds a
regular file that is also named `f`, which `stat` cannot reach. -/
def unsearchable_root : Node :=
  .dir true true
    [("d".toList, .dir true false [("f".toList, .reg none none)]),
     ("f".toList, .reg (some 7) none)]

/-- The working directory from which `unsearchable_root` is listed as
`root`. -/
def unsearchable_tree : Node := .dir true true [("root".toList, unsearchable_root)]

/-- A directory `root` that holds the directory `d`, which can be read but
not searched, and the directory `s`; `d` holds a directory that is also named
`s`, which cannot be reached; `root/s` holds the directory `u` with one
regular file of 3 bytes. -/
def unsearchable_root_dirs : Node :=
  .dir true true
    [("d".toList, .dir true false [("s".toList, .dir false false [])]),
     ("s".toList, .dir true true
        [("u".toList, .dir true true [("x".toList, .reg (some 3) none)])])]

/-- The working directory from which `unsearchable_root_dirs` is listed as
`root`. -/
def unsearchable_tree_dirs : Node := .dir true true [("root".toList, unsearchable_root_dirs)]

/-- A tree with a hidden directory, an empty directory, a symbolic link, a
file whose `stat` fails and a directory that cannot be read. -/
def sample_tree : Node :=
  .dir true true [("root".toList, .dir true true
    [(".h".toList, .dir true true
        [("x".toList, .reg (some 5) (some (List.replicate 16 171))),
         ("y".toList, .dir true true [])]),
     ("a".toList, .dir true true
        [("e".toList, .dir true true []),
         ("l".toList, .lnk (some "tgt".toList) (some "/abs/tgt".toList))]),
     ("f".toList, .reg (some 1144) (some (List.replicate 16 1))),
     ("g".toList, .reg none none),
     ("z".toList, .dir false false [])])]

/-- A working directory that holds one empty directory `e`. -/
def empty_dir_tree : Node := .dir true true [("e".toList, .dir true true [])]

/-- What the size pass leaves for `sample_tree` under `filter_hidden`. -/
def sample_sizes : CState Node :=
  { sizes := [1149, 0, 0, 0, 0, 0, 0, 0, 0, 0], dir_index := 3, array_size := 10,
    cwd := sample_tree }

/-- What `parse_directory` leaves for `sample_tree` under `filter_hidden` and
`byte_format_human`. -/
def sample_report : PState Node :=
  { out := ("| a (directory - 0B)\n---| e (directory - 0B)\n"
      ++ "      *** empty directory ***\n"
      ++ "   | l (symbolic link - points to 'tgt', absolute path : '/abs/tgt')\n"
      ++ "| f (regular file - 1.1KB - 01010101010101010101010101010101)\n"
      ++ "| g (regular file - error parsing file: Permission denied)\n"
      ++ "| z (directory - error parsing directory: Permission denied)\n").toList,
    dir_index := 3, cwd := sample_tree }

/-! ## Trees on which every name resolves to the entry it was listed for -/

/-- The names of the entries of a directory are pairwise distinct and none
of them is "." or "..". -/
def names_ok (entries : List (CStr × Node)) : Bool :=
  decide (entries.map Prod.fst).Nodup &&
    entries.all fun e => decide (filter_show_hidden e.1 ≠ 0)

/-- Every directory of the tree that can be read can also be searched, the
names in every directory are distinct and are not "." or "..", and only
directories and regular files carry the types `DT_DIR` and `DT_REG`. -/
def Node.searchable : Node → Bool
  | .reg _ _ => true
  | .lnk _ _ => true
  | .other t => decide (t ≠ DT_DIR) && decide (t ≠ DT_REG)
  | .dir readable x entries => (!readable || x) && names_ok entries && go entries
where
  /-- The same for every entry of a list. -/
  go : List (CStr × Node) → Bool
    | [] => true
    | (_, n) :: rest => n.searchable && go rest

/-- The number of directory levels of a tree. -/
def Node.depth : Node → Nat
  | .dir _ _ entries => go entries + 1
  | _ => 0
where
  /-- The largest depth among the entries. -/
  go : List (CStr × Node) → Nat
    | [] => 0
    | (_, n) :: rest => max n.depth (go rest)

/-! ## Statements the proofs go through, by induction on the fuel -/

/-- A detached run (`dont_store = 1`, one-element buffer, index 0) leaves the
total of `dir_totals` in its buffer and changes nothing else. -/
def DetachedAgrees {W : Type} (sys : Sys W) (ff : FilterFn) (fuel : Nat) : Prop :=
  ∀ (path : CStr) (x : Int) (cap : Nat) (cwd : W), 0 < cap →
    compute_dir_size_r sys ff fuel path
        { sizes := [x], dir_index := 0, array_size := cap, cwd := cwd } true
      = (dir_totals sys ff fuel cwd path true).map fun r =>
          { sizes := [r.1], dir_index := 0, array_size := cap, cwd := cwd }

/-- A stored run (`dont_store = 0`) started at index `dir_index` of an array
with `array_size` elements: it fails exactly when `dir_totals` does, and
otherwise leaves the total at `dir_index`, the totals of the directories below
right after it, the elements before `dir_index` as they were, the index at the
last slot used and the working directory where it was. -/
def StoredAgrees {W : Type} (sys : Sys W) (ff : FilterFn) (fuel : Nat) : Prop :=
  ∀ (path : CStr) (st : CState W), st.sizes.length = st.array_size →
    st.dir_index ≤ st.array_size → 0 < st.array_size →
    (dir_totals sys ff fuel st.cwd path false = none →
      compute_dir_size_r sys ff fuel path st false = none) ∧
    (∀ r, dir_totals sys ff fuel st.cwd path false = some r →
      ∃ (st' : CState W) (post : List Int),
        compute_dir_size_r sys ff fuel path st false = some st' ∧
        st'.cwd = st.cwd ∧ st'.dir_index = st.dir_index + r.2.length ∧
        st'.sizes.length = st'.array_size ∧ 0 < st'.array_size ∧
        st'.sizes = st.sizes.take st.dir_index ++ (r.1 :: (r.2 ++ post)))

/-- One call of the print pass whose cursor stands on the slot of the
directory it is called for: it prints what `print_with_totals_r` prints, and
leaves the cursor on the last slot of the directories below. -/
def ParseAgrees {W : Type} (sys : Sys W) (ff : FilterFn) (bf : ByteFormatter)
    (fuel : Nat) : Prop :=
  ∀ (path : CStr) (sizes : List Int) (st : PState W) (depth : Nat)
    (pre : List Int) (a : Int) (l post : List Int),
    sizes = pre ++ (a :: (l ++ post)) → pre.length = st.dir_index →
    dir_totals sys ff fuel st.cwd path false = some (a, l) →
    parse_directory_r sys ff bf fuel path sizes st depth
      = print_with_totals_r sys ff bf fuel path st depth ∧
    (∀ p, parse_directory_r sys ff bf fuel path sizes st depth = some p →
      p.dir_index = st.dir_index + l.length ∧ p.cwd = st.cwd) ∧
    (bf = ByteFormatter.byte_format_identity →
      (parse_directory_r sys ff bf fuel path sizes st depth).isSome = true)

/-! ## The entry point: `main` (gls.c:646) -/

/-- `VERSION` (gls.c:60). -/
def VERSION : CStr := "1.0".toList

/-- `USAGE_STR` (gls.c:648). -/
def USAGE_STR : CStr := "usage: 'gls [-ah] [directory_name]'".toList

/-- How a run of `main` ends: the exit status, and what it wrote to standard
output and to standard error. -/
structure Outcome where
  status : Nat
  out : CStr
  err : CStr
  deriving DecidableEq, Repr

/-- The first loop of `main` (gls.c:656-666): whether some argument compares
equal to "--help" over `sizeof("--help")` = 7 characters. -/
def main_help_requested : List CStr → Bool
  | [] => false
  | arg :: rest =>
    if strncmp arg "--help".toList 7 = 0 then true else main_help_requested rest

/-- What `main` prints for "--help" (gls.c:659-662). -/
def help_text : CStr :=
  "gls version ".toList ++ VERSION ++ "\n\n".toList ++ USAGE_STR ++ "\n".toList
    ++ "\ta : show hidden files and directories\n".toList
    ++ "\th : display file sizes in human readable format (i.e. KB, MB, GB)\n".toList

/-- The three lines `main` writes to standard error for a usage error: the
message, `USAGE_STR`, and the hint. -/
def usage_error (message : CStr) : CStr :=
  message ++ USAGE_STR ++ "\n".toList ++ "Try 'gls --help' for more info\n".toList

/-- The two global function pointers and `dir_arg_index` of `main`. -/
structure MainState where
  filter_function : FilterFn
  byte_formatter : ByteFormatter
  dir_arg_index : Nat
  deriving DecidableEq, Repr

/-- The loop over the characters of one option argument, after its '-'
(gls.c:687-715); the error is the character that is no option. -/
def main_option_loop : List Char → MainState → Except Char MainState
  | [], s => .ok s
  | option :: rest, s =>
    if option = 'a' then
      main_option_loop rest { s with filter_function := FilterFn.filter_show_hidden }
    else if option = 'h' then
      main_option_loop rest { s with byte_formatter := ByteFormatter.byte_format_human }
    else .error option

/-- The second loop of `main` (gls.c:670-735), at the argument `argv[i]`;
`args` holds `argv[i]` and the arguments after it. -/
def main_args_loop : Nat → List CStr → MainState → Except Outcome MainState
  | _, [], s => .ok s
  | i, arg :: rest, s =>
    if arg.head? = some '-' then
      -- argv[i][1] == '\0'
      if arg.tail = [] then
        .error { status := 1, out := [],
                 err := usage_error "gls: illegal option '-'\n".toList }
      else
        match main_option_loop arg.tail s with
        | .error option =>
          .error { status := 1, out := [],
                   err := usage_error ("gls: illegal option '-".toList ++ [option]
                     ++ "'\n".toList) }
        | .ok s1 => main_args_loop (i + 1) rest s1
    else if s.dir_arg_index ≠ 0 then
      .error { status := 2, out := [],
               err := usage_error "gls: Please specify only one directory\n".toList }
    else main_args_loop (i + 1) rest { s with dir_arg_index := i }

/-- The end of `main` (gls.c:742-755): the `opendir` test of the root path,
then `parse_directory`. `none` when `parse_directory` does not return. -/
def main_traverse {W : Type} (sys : Sys W) (fuel : Nat) (cwd : W)
    (filter_function : FilterFn) (byte_formatter : ByteFormatter) (dir_path : CStr) :
    Option Outcome :=
  match sys.readdir cwd dir_path with
  | .error msg =>
    some { status := 3, out := [],
           err := "gls: Error accessing '".toList ++ dir_path ++ "': ".toList ++ msg
             ++ "\n".toList }
  | .ok _ =>
    match parse_directory sys filter_function byte_formatter fuel cwd [] dir_path with
    | none => none
    | some p => some { status := 0, out := p.out, err := [] }

/-- `main` (gls.c:646) on the argument vector `argv`, `argv[0]` included. -/
def main {W : Type} (sys : Sys W) (fuel : Nat) (cwd : W) (argv : List CStr) :
    Option Outcome :=
  if main_help_requested (argv.drop 1) = true then
    some { status := 0, out := help_text, err := [] }
  else
    match main_args_loop 1 (argv.drop 1)
        { filter_function := FilterFn.filter_hidden,
          byte_formatter := ByteFormatter.byte_format_identity, dir_arg_index := 0 } with
    | .error e => some e
    | .ok s =>
      -- dir_path = (dir_arg_index != 0) ? argv[dir_arg_index] : "."
      match (if s.dir_arg_index ≠ 0 then argv[s.dir_arg_index]? else some ".".toList) with
      | none => none
      | some dir_path =>
        main_traverse sys fuel cwd s.filter_function s.byte_formatter dir_path

/-! ## The selection the specification states for an argument list -/

/-- The filter: ShowAll (`filter_show_hidden`) exactly when some option
argument contains 'a'. Written from the specification, for comparison with
`main`. -/
def selected_filter (args : List CStr) : FilterFn :=
  if ∃ a ∈ args, a.head? = some '-' ∧ 'a' ∈ a then FilterFn.filter_show_hidden
  else FilterFn.filter_hidden

/-- The formatter: Human (`byte_format_human`) exactly when some option
argument contains 'h'. Written from the specification, for comparison with
`main`. -/
def selected_formatter (args : List CStr) : ByteFormatter :=
  if ∃ a ∈ args, a.head? = some '-' ∧ 'h' ∈ a then ByteFormatter.byte_format_human
  else ByteFormatter.byte_format_identity

/-- The root path: the argument that does not start with '-', or "." when
there is none. Written from the specification, for comparison with `main`. -/
def selected_root (args : List CStr) : CStr :=
  (args.find? fun a => decide (a.head? ≠ some '-')).getD ".".toList

/-! ## Index and capacity of the size sequence -/

/-- How a stored run of the size pass that starts with the index `i` and the
capacity `c` may leave them, as `i'` and `c'`: the index did not go back and
is below the capacity, the capacity was doubled some number of times, and it
was doubled only when the index had reached it. -/
def CapacityStep (i c i' c' : Nat) : Prop :=
  i ≤ i' ∧ i' < c' ∧ (∃ j : Nat, c' = c * 2 ^ j) ∧ (c' = c ∨ c' ≤ 2 * i')

/-! ## Further sample trees -/

/-- A working directory that holds the directory `root` with the eleven empty
directories `a` to `k`: one directory more than the first capacity of the size
sequence has slots left after the slot of `root`. -/
def wide_tree : Node :=
  .dir true true [("root".toList, .dir true true
    ("abcdefghijk".toList.map fun ch => ([ch], Node.dir true true [])))]

/-- What the size pass leaves for `wide_tree`: twelve slots used, the capacity
doubled once. -/
def wide_sizes : CState Node :=
  { sizes := List.replicate 20 0, dir_index := 11, array_size := 20, cwd := wide_tree }

theorem byte_format_human_loop_spec (k : Nat) : ∀ (fuel nb si r : Nat), nb ≤ fuel →
    nb / 1000 ^ k < 1000 → (∀ j, j < k → 1000 ≤ nb / 1000 ^ j) →
    byte_format_human_loop fuel (nb : Int) si r
      = (((nb / 1000 ^ k : Nat) : Int), si + k,
          if k = 0 then r else (nb / 1000 ^ (k - 1)) % 1000) := by
  induction k with
  | zero =>
    intro fuel nb si r _ hlt _
    have hnb : ¬ ((nb : Int) ≥ 1000) := by simp at hlt; omega
    cases fuel with
    | zero => simp [byte_format_human_loop]
    | succ f => simp [byte_format_human_loop, hnb]
  | succ k ih =>
    intro fuel nb si r hfuel hlt hleast
    have h1000 : 1000 ≤ nb := by simpa using hleast 0 (Nat.succ_pos k)
    obtain ⟨f, rfl⟩ : ∃ f, fuel = f + 1 := ⟨fuel - 1, by omega⟩
    have hc : (nb : Int) ≥ 1000 := by omega
    have hdiv : (nb : Int).tdiv 1000 = ((nb / 1000 : Nat) : Int) := by
      exact (Int.ofNat_tdiv nb 1000).symm
    have hmod : ((nb : Int).tmod 1000).toNat = nb % 1000 := by
      have : (nb : Int).tmod 1000 = ((nb % 1000 : Nat) : Int) := (Int.ofNat_tmod nb 1000).symm
      rw [this]; exact Int.toNat_ofNat _
    have hpow : ∀ j, nb / 1000 / 1000 ^ j = nb / 1000 ^ (j + 1) := by
      intro j; rw [Nat.div_div_eq_div_mul, pow_succ']
    rw [byte_format_human_loop, if_pos hc, hdiv, hmod,
      ih f (nb / 1000) (si + 1) (nb % 1000) (by omega) (by rw [hpow]; exact hlt)
        (fun j hj => by rw [hpow]; exact hleast (j + 1) (by omega))]
    rw [hpow]
    refine Prod.ext rfl (Prod.ext (by simp; omega) ?_)
    cases k with
    | zero => simp
    | succ k => simp [hpow]

theorem toDigitsCore_length_le (k : Nat) : ∀ (fuel n : Nat) (ds : List Char), n < 10 ^ (k + 1) →
    (Nat.toDigitsCore 10 fuel n ds).length ≤ ds.length + k + 1 := by
  induction k with
  | zero =>
    intro fuel n ds hn
    cases fuel with
    | zero => simp [Nat.toDigitsCore]
    | succ f =>
      have : n / 10 = 0 := by omega
      simp [Nat.toDigitsCore, this]
  | succ k ih =>
    intro fuel n ds hn
    cases fuel with
    | zero => simp [Nat.toDigitsCore]; omega
    | succ f =>
      simp only [Nat.toDigitsCore]
      split
      · simp
      · have h := ih f (n / 10) ((n % 10).digitChar :: ds) (by rw [pow_succ] at hn; omega)
        simp at h; omega

theorem toDigits_length_le (k n : Nat) (hn : n < 10 ^ (k + 1)) :
    (Nat.toDigits 10 n).length ≤ k + 1 := by
  have := toDigitsCore_length_le k (n + 1) n [] hn
  simpa [Nat.toDigits] using this

theorem fmt_lld_natCast (q : Nat) : fmt_lld (q : Int) = Nat.toDigits 10 q := by
  simp [fmt_lld]

theorem byte_format_human_of_index (n k : Nat) (suffix : CStr)
    (hlt : n / 1000 ^ k < 1000) (hleast : ∀ j, j < k → 1000 ≤ n / 1000 ^ j)
    (hs : size_suffixes[k]? = some suffix) :
    byte_format_human (n : Int) =
      some (snprintf 8 (Nat.toDigits 10 (n / 1000 ^ k) ++
        (if (if k = 0 then 0 else n / 1000 ^ (k - 1) % 1000) < 100 then []
          else '.' :: Nat.toDigits 10 ((if k = 0 then 0 else n / 1000 ^ (k - 1) % 1000) / 100))
        ++ suffix)) := by
  unfold byte_format_human
  rw [Int.toNat_ofNat, byte_format_human_loop_spec k n n 0 0 (le_refl n) hlt hleast]
  simp only [Nat.zero_add, hs, fmt_lld_natCast, fmt_d]
  split <;> split <;> simp_all

theorem suffix_length_le (k : Nat) (suffix : CStr) (hs : size_suffixes[k]? = some suffix) :
    suffix.length ≤ 2 := by
  have hk : k < 5 := by
    by_contra h
    have : size_suffixes[k]? = none := by
      simp [size_suffixes]; omega
    rw [this] at hs; cases hs
  interval_cases k <;> simp [size_suffixes] at hs <;> subst hs <;> decide

theorem tenth_digit_eq (n k : Nat) (hk : k ≠ 0) :
    n / 1000 ^ (k - 1) % 1000 / 100 = 10 * n / 1000 ^ k % 10 := by
  obtain ⟨j, rfl⟩ : ∃ j, k = j + 1 := ⟨k - 1, by omega⟩
  have h1 : 10 * n / 1000 ^ (j + 1) = n / 1000 ^ j / 100 := by
    rw [pow_succ, Nat.div_div_eq_div_mul,
      show 1000 ^ j * 1000 = 10 * (1000 ^ j * 100) by ring,
      Nat.mul_div_mul_left _ _ (by norm_num : 0 < 10)]
  rw [h1, Nat.add_sub_cancel]
  omega

theorem toDigits_digit (d : Nat) (hd : d < 10) : Nat.toDigits 10 d = [Nat.digitChar d] := by
  have h0 : d / 10 = 0 := by omega
  have h1 : d % 10 = d := by omega
  simp [Nat.toDigits, Nat.toDigitsCore, h0, h1]

/-- The text `byte_format_human` returns below `10^15`. -/
theorem byte_format_human_text (n : Nat) (hn : n < 10 ^ 15) :
    ∃ (k : Nat) (suffix text : CStr),
      n / 1000 ^ k < 1000 ∧ (∀ j, j < k → 1000 ≤ n / 1000 ^ j) ∧
      ["B".toList, "KB".toList, "MB".toList, "GB".toList, "TB".toList][k]? = some suffix ∧
      text = Nat.toDigits 10 (n / 1000 ^ k) ++
        (if 10 * n / 1000 ^ k % 10 = 0 then [] else ['.', Nat.digitChar (10 * n / 1000 ^ k % 10)])
        ++ suffix ∧
      byte_format_human (n : Int) = some text ∧ text.length ≤ 7 := by
  -- the number of divisions
  obtain ⟨k, hk4, hlt, hleast⟩ : ∃ k, k ≤ 4 ∧ n / 1000 ^ k < 1000 ∧
      ∀ j, j < k → 1000 ≤ n / 1000 ^ j := by
    by_cases h0 : n < 1000
    · exact ⟨0, by omega, by simpa using h0, fun j hj => by omega⟩
    by_cases h1 : n < 1000000
    · refine ⟨1, by omega, by norm_num; omega, fun j hj => ?_⟩
      interval_cases j
      norm_num
      omega
    by_cases h2 : n < 1000000000
    · refine ⟨2, by omega, by norm_num; omega, fun j hj => ?_⟩
      interval_cases j <;> norm_num <;> omega
    by_cases h3 : n < 1000000000000
    · refine ⟨3, by omega, by norm_num; omega, fun j hj => ?_⟩
      interval_cases j <;> norm_num <;> omega
    · refine ⟨4, by omega, by norm_num at hn ⊢; omega, fun j hj => ?_⟩
      interval_cases j <;> norm_num <;> omega
  obtain ⟨suffix, hs⟩ : ∃ suffix, size_suffixes[k]? = some suffix := by
    interval_cases k <;> simp [size_suffixes]
  have hcode := byte_format_human_of_index n k suffix hlt hleast hs
  have hd10 : 10 * n / 1000 ^ k % 10 < 10 := Nat.mod_lt _ (by norm_num)
  -- the fraction the code prints is the one of the statement
  have hfrac : (if (if k = 0 then 0 else n / 1000 ^ (k - 1) % 1000) < 100 then []
        else '.' :: Nat.toDigits 10 ((if k = 0 then 0 else n / 1000 ^ (k - 1) % 1000) / 100))
      = (if 10 * n / 1000 ^ k % 10 = 0 then []
        else ['.', Nat.digitChar (10 * n / 1000 ^ k % 10)]) := by
    by_cases hk0 : k = 0
    · subst hk0
      have : 10 * n / 1000 ^ 0 % 10 = 0 := by simp
      simp
    · have hd := tenth_digit_eq n k hk0
      simp only [if_neg hk0]
      by_cases hr : n / 1000 ^ (k - 1) % 1000 < 100
      · have : 10 * n / 1000 ^ k % 10 = 0 := by rw [← hd]; omega
        simp [hr, this]
      · have : 10 * n / 1000 ^ k % 10 ≠ 0 := by rw [← hd]; omega
        rw [if_neg hr, if_neg this, hd, toDigits_digit _ hd10]
  rw [hfrac] at hcode
  have hlen : (Nat.toDigits 10 (n / 1000 ^ k) ++
        (if 10 * n / 1000 ^ k % 10 = 0 then [] else ['.', Nat.digitChar (10 * n / 1000 ^ k % 10)])
        ++ suffix).length ≤ 7 := by
    have h1 := toDigits_length_le 2 (n / 1000 ^ k) (by norm_num; exact hlt)
    have h2 := suffix_length_le k suffix hs
    simp only [List.length_append]
    split <;> simp <;> omega
  refine ⟨k, suffix, _, hlt, hleast, hs, rfl, ?_, hlen⟩
  rw [hcode, snprintf, List.take_of_length_le (by omega)]

/-- C4: for `0 ≤ n < 10^15`, `byte_format_human n` is the decimal digits of
`q = ⌊n / 1000^k⌋`, then `.` and the digit `d = ⌊10 n / 1000^k⌋ mod 10` only
when `d ≠ 0`, then the `k`-th of the suffixes B, KB, MB, GB, TB, where `k` is
the least number with `⌊n / 1000^k⌋ < 1000`; this text has at most 7
characters, so the 8-byte buffer keeps all of it. In particular 999 gives
"999B", 1000 gives "1KB", 1144 gives "1.1KB" and 1999888 gives "1.9MB". -/
theorem byte_format_human_spec (n : Nat) (hn : n < 10 ^ 15) :
    (∃ (k : Nat) (suffix text : CStr),
      n / 1000 ^ k < 1000 ∧ (∀ j, j < k → 1000 ≤ n / 1000 ^ j) ∧
      ["B".toList, "KB".toList, "MB".toList, "GB".toList, "TB".toList][k]? = some suffix ∧
      text = Nat.toDigits 10 (n / 1000 ^ k) ++
        (if 10 * n / 1000 ^ k % 10 = 0 then [] else ['.', Nat.digitChar (10 * n / 1000 ^ k % 10)])
        ++ suffix ∧
      byte_format_human (n : Int) = some text ∧ text.length ≤ 7) ∧
    byte_format_human 999 = some "999B".toList ∧
    byte_format_human 1000 = some "1KB".toList ∧
    byte_format_human 1144 = some "1.1KB".toList ∧
    byte_format_human 1999888 = some "1.9MB".toList := by
  exact ⟨byte_format_human_text n hn, by decide, by decide, by decide, by decide⟩

/-- Witness for `byte_format_human_spec` at `n = 1999888`. -/
theorem byte_format_human_spec_witness :
    (1999888 : Nat) < 10 ^ 15 ∧
    ∃ (k : Nat) (suffix text : CStr),
      1999888 / 1000 ^ k < 1000 ∧ (∀ j, j < k → 1000 ≤ 1999888 / 1000 ^ j) ∧
      ["B".toList, "KB".toList, "MB".toList, "GB".toList, "TB".toList][k]? = some suffix ∧
      text = Nat.toDigits 10 (1999888 / 1000 ^ k) ++
        (if 10 * 1999888 / 1000 ^ k % 10 = 0 then []
          else ['.', Nat.digitChar (10 * 1999888 / 1000 ^ k % 10)])
        ++ suffix ∧
      byte_format_human ((1999888 : Nat) : Int) = some text ∧ text.length ≤ 7 :=
  ⟨by norm_num, (byte_format_human_spec 1999888 (by norm_num)).1⟩

/-- C5 (failing input): `num_bytes = 10^15` is a signed 64-bit value, the loop
of `byte_format_human` divides it five times, and index 5 is outside the
five-entry suffix table: the C code reads `size_suffixes[5]`. -/
theorem byte_format_human_index_outside_table :
    (1000000000000000 : Int) ≤ 2 ^ 63 - 1 ∧
    (byte_format_human_loop 1000000000000000 1000000000000000 0 0).2.1 = 5 ∧
    size_suffixes.length = 5 ∧
    size_suffixes[(byte_format_human_loop 1000000000000000 1000000000000000 0 0).2.1]? = none ∧
    byte_format_human 1000000000000000 = none := by
  refine ⟨by norm_num, by decide, by decide, by decide, by decide⟩

/-- The number of divisions `byte_format_human` performs stays inside the
suffix table exactly up to `10^15 - 1`: below `10^15` the result is defined. -/
theorem byte_format_human_defined (n : Nat) (hn : n < 10 ^ 15) :
    (byte_format_human (n : Int)).isSome = true := by
  obtain ⟨_, _, _, _, _, _, _, h, _⟩ := byte_format_human_text n hn
  rw [h]; rfl

/-- C6 (failing input): `num_bytes = -10^18` is a signed 64-bit value whose
decimal text has 20 characters; the 20-byte buffer of `byte_format_identity`
holds 19 of them, so the last digit is lost. -/
theorem byte_format_identity_truncates :
    (-(2 : Int) ^ 63 ≤ -1000000000000000000) ∧
    fmt_lld (-1000000000000000000) = "-1000000000000000000".toList ∧
    byte_format_identity (-1000000000000000000) = "-100000000000000000".toList ∧
    byte_format_identity (-1000000000000000000) ≠ fmt_lld (-1000000000000000000) ∧
    byte_format_identity 1234 = "1234".toList := by
  refine ⟨by norm_num, by decide, by decide, by decide, by decide⟩

/-- For every value that `%lld` prints in at most 19 characters, among them
every non-negative signed 64-bit value, `byte_format_identity` returns the
complete text. -/
theorem byte_format_identity_complete (v : Int) (hlo : -10 ^ 18 < v) (hhi : v < 10 ^ 19) :
    byte_format_identity v = fmt_lld v := by
  unfold byte_format_identity snprintf
  apply List.take_of_length_le
  unfold fmt_lld
  split
  · have := toDigits_length_le 17 v.natAbs (by omega)
    simp; omega
  · have := toDigits_length_le 18 v.natAbs (by omega)
    omega

/-! ### Hex rendering -/

theorem hex_hi_eq (b : Nat) (hb : b < 256) : hex_hi b = hex_table.getD (b / 16) '\x00' := by
  have h : (b >>> 4) &&& 0xF = b / 16 := by
    have := Nat.and_pow_two_sub_one_eq_mod (b >>> 4) 4
    norm_num at this
    rw [this, Nat.shiftRight_eq_div_pow]
    omega
  rw [hex_hi, h]

theorem hex_lo_eq (b : Nat) : hex_lo b = hex_table.getD (b % 16) '\x00' := by
  have h : b &&& 0xF = b % 16 := by
    have := Nat.and_pow_two_sub_one_eq_mod b 4
    norm_num at this
    exact this
  rw [hex_lo, h]

theorem hex_encoding_cons (b : Nat) (l : List Nat) : hex_encoding (b :: l)
    = hex_table.getD (b / 16) '\x00' :: hex_table.getD (b % 16) '\x00' :: hex_encoding l := by
  simp [hex_encoding]

theorem hex_encoding_take_even (l : List Nat) : ∀ i, (hex_encoding l).take (2 * i)
    = hex_encoding (l.take i) := by
  induction l with
  | nil => intro i; simp [hex_encoding]
  | cons b l ih =>
    intro i
    cases i with
    | zero => simp [hex_encoding]
    | succ i =>
      rw [show 2 * (i + 1) = 2 * i + 1 + 1 by ring, List.take_succ_cons, hex_encoding_cons,
        hex_encoding_cons, List.take_succ_cons, List.take_succ_cons, ih i]

theorem hex_encoding_length (l : List Nat) : (hex_encoding l).length = 2 * l.length := by
  induction l with
  | nil => simp [hex_encoding]
  | cons b l ih => rw [hex_encoding_cons]; simp [ih]; ring

theorem hex_encoding_take_succ (l : List Nat) (i : Nat) (hi : i < l.length)
    (hb : ∀ b ∈ l, b < 256) :
    (hex_encoding l).take (2 * (i + 1))
      = (hex_encoding l).take (2 * i) ++ [hex_hi (l.getD i 0), hex_lo (l.getD i 0)] := by
  have hget : l[i]? = some l[i] := List.getElem?_eq_getElem hi
  have hD : l.getD i 0 = l[i] := List.getD_eq_getElem l 0 hi
  have h1 : l.take (i + 1) = l.take i ++ [l[i]] := by rw [List.take_succ, hget]; rfl
  rw [hex_encoding_take_even, hex_encoding_take_even, h1, hD,
    hex_hi_eq _ (hb _ (List.getElem_mem hi)), hex_lo_eq]
  unfold hex_encoding
  rw [List.flatMap_append]
  rfl

theorem hex_encoding_take_odd (l : List Nat) (i : Nat) (hi : i < l.length)
    (hb : ∀ b ∈ l, b < 256) :
    (hex_encoding l).take (2 * i + 1)
      = (hex_encoding l).take (2 * i) ++ [hex_hi (l.getD i 0)] := by
  have h := hex_encoding_take_succ l i hi hb
  have h2 : (hex_encoding l).take (2 * i + 1)
      = ((hex_encoding l).take (2 * (i + 1))).take (2 * i + 1) := by
    rw [List.take_take]; congr 1; omega
  rw [h2, h]
  have hlen : ((hex_encoding l).take (2 * i)).length = 2 * i := by
    rw [List.length_take, hex_encoding_length]; omega
  rw [List.take_append_eq_append_take, hlen]
  simp

theorem md5_hex_loop_inv (md5_bytes : List Nat) (n : Nat) (hlen : md5_bytes.length = 16)
    (hb : ∀ b ∈ md5_bytes, b < 256) (hn2 : 2 ≤ n) (hn : n < 4294967296) :
    ∀ (fuel i : Nat) (written : CStr), 16 ≤ i + fuel → i ≤ 16 →
      written = (hex_encoding md5_bytes).take (2 * i) →
      ∃ i', md5_hex_loop md5_bytes n fuel i written
          = (i', (hex_encoding md5_bytes).take (2 * i')) ∧ i ≤ i' ∧ i' ≤ 16 ∧
        (i' = 16 ∨ n ≤ 2 * i' + 2) ∧ (i < i' → 2 * i' < n) := by
  intro fuel
  induction fuel with
  | zero =>
    intro i written hf hi hw
    exact ⟨i, by simp [md5_hex_loop, hw], le_refl _, hi, Or.inl (by omega), fun h => by omega⟩
  | succ f ih =>
    intro i written hf hi hw
    have hwrap : (n + UINT_MOD - 2) % UINT_MOD = n - 2 := by unfold UINT_MOD; omega
    have hi2 : (i * 2) % UINT_MOD = i * 2 := by unfold UINT_MOD; omega
    by_cases hc : i < MD5_DIGEST_LENGTH ∧ (i * 2) % UINT_MOD < (n + UINT_MOD - 2) % UINT_MOD
    · have hc1 : i < 16 := hc.1
      have hc2 : i * 2 < n - 2 := by rw [← hi2, ← hwrap]; exact hc.2
      obtain ⟨i', h1, h2, h3, h4, h5⟩ := ih (i + 1)
        (written ++ [hex_hi (md5_bytes.getD i 0), hex_lo (md5_bytes.getD i 0)])
        (by omega) (by omega)
        (by rw [hw, hex_encoding_take_succ md5_bytes i (by omega) hb])
      refine ⟨i', ?_, by omega, h3, h4, fun _ => ?_⟩
      · rw [md5_hex_loop, if_pos hc, h1]
      · rcases Nat.lt_or_ge (i + 1) i' with h | h
        · exact h5 h
        · have : i' = i + 1 := by omega
          omega
    · refine ⟨i, ?_, le_refl _, hi, ?_, fun h => by omega⟩
      · rw [md5_hex_loop, if_neg hc, hw]
      · rw [hwrap, hi2] at hc
        simp only [MD5_DIGEST_LENGTH] at hc
        omega

theorem md5_hex_string_eq (md5_bytes : List Nat) (n : Nat)
    (hlen : md5_bytes.length = 16) (hb : ∀ b ∈ md5_bytes, b < 256)
    (hn2 : 2 ≤ n) (hn : n < 4294967296) :
    md5_hex_string md5_bytes n = (hex_encoding md5_bytes).take (min 32 (n - 1)) := by
  obtain ⟨i', h1, -, h3, h4, h5⟩ := md5_hex_loop_inv md5_bytes n hlen hb hn2 hn 16 0 []
    (by omega) (by omega) (by simp)
  have hwrap : (n + UINT_MOD - 1) % UINT_MOD = n - 1 := by unfold UINT_MOD; omega
  have hi2 : (i' * 2) % UINT_MOD = i' * 2 := by unfold UINT_MOD; omega
  have h1' : md5_hex_loop md5_bytes n MD5_DIGEST_LENGTH 0 []
      = (i', (hex_encoding md5_bytes).take (2 * i')) := h1
  unfold md5_hex_string md5_hex_written
  rw [h1']
  unfold md5_hex_finish
  rw [hwrap, hi2]
  by_cases hc : i' < MD5_DIGEST_LENGTH ∧ i' * 2 < n - 1
  · have hc1 : i' < 16 := hc.1
    have hc2 : i' * 2 < n - 1 := hc.2
    have hidx : min 32 (n - 1) = 2 * i' + 1 := by
      rcases h4 with h4 | h4 <;> omega
    rw [if_pos hc, List.dropLast_concat, hidx,
      hex_encoding_take_odd md5_bytes i' (by omega) hb]
  · rw [if_neg hc, List.dropLast_concat]
    have hc' : ¬ (i' < 16 ∧ i' * 2 < n - 1) := hc
    have hidx : min 32 (n - 1) = 2 * i' := by
      rcases Nat.eq_zero_or_pos i' with h0 | h0
      · subst h0; omega
      · have := h5 h0
        omega
    rw [hidx]

/-- C8: for a 16-byte digest and a capacity `2 ≤ n < 2^32`, the string
`fcompute_md5_strn` leaves in the buffer is the first `min(32, n - 1)`
characters of the 32-character lowercase hex encoding of the digest (byte `i`
gives character `2i` from its high nibble and `2i+1` from its low nibble):
all of it when `n ≥ 33`, the encoding cut to `n - 1` characters otherwise. -/
theorem fcompute_md5_strn_hex_truncation (md5_bytes : List Nat) (n : Nat)
    (hlen : md5_bytes.length = 16) (hb : ∀ b ∈ md5_bytes, b < 256)
    (hn2 : 2 ≤ n) (hn : n < 2 ^ 32) :
    md5_hex_string md5_bytes n = (hex_encoding md5_bytes).take (min 32 (n - 1)) ∧
    (33 ≤ n → md5_hex_string md5_bytes n = hex_encoding md5_bytes) ∧
    (n < 33 → (md5_hex_string md5_bytes n).length = n - 1) := by
  have key := md5_hex_string_eq md5_bytes n hlen hb hn2 (by norm_num at hn; exact hn)
  refine ⟨key, fun h => ?_, fun h => ?_⟩
  · rw [key, List.take_of_length_le]
    rw [hex_encoding_length, hlen]
    have : min 32 (n - 1) = 32 := by omega
    omega
  · rw [key, List.length_take, hex_encoding_length, hlen]
    omega

/-- Witness for `fcompute_md5_strn_hex_truncation`: the digest whose bytes are all
`0xab`, rendered into a 4-byte buffer. -/
theorem fcompute_md5_strn_hex_truncation_witness :
    md5_hex_string (List.replicate 16 171) 4
      = (hex_encoding (List.replicate 16 171)).take (min 32 (4 - 1)) :=
  (fcompute_md5_strn_hex_truncation (List.replicate 16 171) 4 (by simp)
    (by intro b hb; rw [List.eq_of_mem_replicate hb]; norm_num) (by norm_num) (by norm_num)).1

/-- C7 (failing input): announced a capacity of 1 (or 0), the hex rendering of
`fcompute_md5_strn` stores 33 bytes for every digest: the bound `n - 2` of the
loop wraps around in `unsigned int`, so all 32 hex digits and the terminator
are written. -/
theorem fcompute_md5_strn_overruns_small_buffer (md5_bytes : List Nat) :
    (md5_hex_written md5_bytes 1).length = 33 ∧ (md5_hex_written md5_bytes 0).length = 33 := by
  constructor <;>
    simp [md5_hex_written, md5_hex_loop, md5_hex_finish, UINT_MOD, MD5_DIGEST_LENGTH]

/-- For a capacity `2 ≤ n < 2^32` the rendering stays inside the buffer:
at most `n` bytes are stored and the last one is the terminator. -/
theorem fcompute_md5_strn_within_capacity (md5_bytes : List Nat) (n : Nat)
    (hlen : md5_bytes.length = 16) (hb : ∀ b ∈ md5_bytes, b < 256)
    (hn2 : 2 ≤ n) (hn : n < 2 ^ 32) :
    (md5_hex_written md5_bytes n).length ≤ n ∧
    (md5_hex_written md5_bytes n).getLast? = some '\x00' := by
  have hlast : ∃ w, md5_hex_written md5_bytes n = w ++ ['\x00'] := by
    unfold md5_hex_written md5_hex_finish
    split
    · exact ⟨_, rfl⟩
    · exact ⟨_, rfl⟩
  obtain ⟨w, hw⟩ := hlast
  have h := md5_hex_string_eq md5_bytes n hlen hb hn2 (by norm_num at hn; exact hn)
  unfold md5_hex_string at h
  rw [hw, List.dropLast_concat] at h
  constructor
  · rw [hw, h, List.length_append, List.length_take, hex_encoding_length, hlen]
    simp; omega
  · rw [hw]; simp

/-! ### The size pass and the reference walk `dir_totals` -/

theorem getElem?_append_cons (pre rest : List Int) (t : Int) (i : Nat) (hi : pre.length = i) :
    (pre ++ t :: rest)[i]? = some t := by
  subst hi
  induction pre with
  | nil => simp
  | cons p pre ih => simpa using ih

theorem set_append_cons (pre rest : List Int) (t v : Int) (i : Nat) (hi : pre.length = i) :
    (pre ++ t :: rest).set i v = pre ++ v :: rest := by
  subst hi
  induction pre with
  | nil => rfl
  | cons p pre ih => simp [ih]

theorem add_at_append (pre rest : List Int) (t v : Int) (i : Nat) (hi : pre.length = i) :
    add_at (pre ++ t :: rest) i v = some (pre ++ (t + v) :: rest) := by
  rw [add_at, getElem?_append_cons pre rest t i hi]
  simp only [set_append_cons pre rest t (t + v) i hi]

theorem store_at_append (pre rest : List Int) (t v : Int) (i : Nat) (hi : pre.length = i) :
    store_at (pre ++ t :: rest) i v = some (pre ++ v :: rest) := by
  have hlt : i < (pre ++ t :: rest).length := by
    rw [List.length_append, List.length_cons]; omega
  rw [store_at, if_pos hlt, set_append_cons pre rest t v i hi]

theorem opendir_dot_eq {W : Type} (sys : Sys W) (cwd saved : W)
    (h : opendir_dot sys cwd = some saved) : saved = cwd := by
  unfold opendir_dot at h
  split at h
  · exact (Option.some.inj h).symm
  · cases h

theorem compute_dir_size_loop_detached {W : Type} (sys : Sys W) (ff : FilterFn) (fuel : Nat)
    (hrec : DetachedAgrees sys ff fuel) (cap : Nat) (hcap : 0 < cap) (cwd : W) :
    ∀ (entries : List Dirent) (t : Int) (sl : List Int),
      compute_dir_size_loop sys ff (fun p s d => compute_dir_size_r sys ff fuel p s d) 0 true
          entries { sizes := [t], dir_index := 0, array_size := cap, cwd := cwd }
        = (dir_totals_loop sys ff (fun p d => dir_totals sys ff fuel cwd p d) cwd true
            entries (t, sl)).map fun r =>
            { sizes := [r.1], dir_index := 0, array_size := cap, cwd := cwd } := by
  intro entries
  induction entries with
  | nil => intro t sl; simp [compute_dir_size_loop, dir_totals_loop]
  | cons e rest ih =>
    intro t sl
    rw [compute_dir_size_loop, dir_totals_loop]
    by_cases hdir : e.d_type = DT_DIR
    · simp only [hdir, if_true, or_true]
      rw [hrec e.d_name sys.junk cap cwd hcap]
      cases hsub : dir_totals sys ff fuel cwd e.d_name true with
      | none => simp
      | some sub =>
        simp only [Option.map_some']
        have : add_at [t] 0 sub.1 = some [t + sub.1] := add_at_append [] [] t sub.1 0 rfl
        simp only [List.getElem?_cons_zero, this]
        exact ih (t + sub.1) sl
    · simp only [hdir, if_false]
      by_cases hreg : e.d_type = DT_REG
      · simp only [hreg, if_true]
        cases hst : sys.stat cwd e.d_name with
        | error msg => simp only []; exact ih t sl
        | ok st_size =>
          have : add_at [t] 0 st_size = some [t + st_size] := add_at_append [] [] t st_size 0 rfl
          simp only [this]
          exact ih (t + st_size) sl
      · simp only [hreg, if_false]
        exact ih t sl

theorem compute_dir_size_r_detached {W : Type} (sys : Sys W) (ff : FilterFn) :
    ∀ fuel, DetachedAgrees sys ff fuel := by
  intro fuel
  induction fuel with
  | zero => intro path x cap cwd _; simp [compute_dir_size_r, dir_totals]
  | succ fuel ih =>
    intro path x cap cwd hcap
    rw [compute_dir_size_r, dir_totals]
    have hlt : ¬ (0 ≥ cap) := by omega
    simp only [hlt, if_false]
    have hst : store_at [x] 0 0 = some [0] := store_at_append [] [] x 0 0 rfl
    simp only [hst]
    cases hscan : scandir sys cwd path Gls.filter_show_hidden with
    | error msg => simp
    | ok entries =>
      cases entries with
      | nil => simp [dir_totals_loop]
      | cons e es =>
        simp only []
        rw [compute_dir_size_loop_detached sys ff fuel ih cap hcap _ (e :: es) 0 []]
        cases dir_totals_loop sys ff
            (fun p d => dir_totals sys ff fuel ((sys.chdir cwd path).getD cwd) p d)
            ((sys.chdir cwd path).getD cwd) true (e :: es) (0, []) with
        | none => simp
        | some r =>
          cases hsave : opendir_dot sys cwd with
          | none => simp
          | some saved => simp [opendir_dot_eq sys cwd saved hsave]

theorem dir_totals_loop_mode {W : Type} (sys : Sys W) (ff : FilterFn) (cwd : W)
    (rec : CStr → Bool → Option (Int × List Int))
    (hrec : ∀ p, rec p true = (rec p false).map fun r => (r.1, [])) :
    ∀ (entries : List Dirent) (t : Int) (sl0 sl : List Int),
      dir_totals_loop sys ff rec cwd true entries (t, sl0)
        = (dir_totals_loop sys ff rec cwd false entries (t, sl)).map fun r => (r.1, sl0) := by
  intro entries
  induction entries with
  | nil => intro t sl0 sl; simp [dir_totals_loop]
  | cons e rest ih =>
    intro t sl0 sl
    rw [dir_totals_loop, dir_totals_loop]
    by_cases hdir : e.d_type = DT_DIR
    · simp only [hdir, if_true, or_true]
      by_cases hh : e.d_name.head? = some '.' ∧ ff = FilterFn.filter_hidden
      · have h2 : (e.d_name.head? = some '.' ∧ ff = FilterFn.filter_hidden)
            ∨ false = true := Or.inl hh
        rw [if_pos h2]
        cases rec e.d_name true with
        | none => simp
        | some sub => simp only []; exact ih _ _ _
      · have hh' : ¬ ((e.d_name.head? = some '.' ∧ ff = FilterFn.filter_hidden)
            ∨ false = true) := by simp [hh]
        rw [if_neg hh', hrec e.d_name]
        cases rec e.d_name false with
        | none => simp
        | some sub => simp only [Option.map_some']; exact ih _ _ _
    · simp only [hdir, if_false]
      by_cases hreg : e.d_type = DT_REG
      · simp only [hreg, if_true]
        cases sys.stat cwd e.d_name with
        | error msg => simp only []; exact ih _ _ _
        | ok st_size => simp only []; exact ih _ _ _
      · simp only [hreg, if_false]
        exact ih _ _ _

/-- The total `dir_totals` computes does not depend on `dont_store`, and
neither does whether the fuel suffices. -/
theorem dir_totals_mode {W : Type} (sys : Sys W) (ff : FilterFn) :
    ∀ (fuel : Nat) (cwd : W) (path : CStr),
      dir_totals sys ff fuel cwd path true
        = (dir_totals sys ff fuel cwd path false).map fun r => (r.1, []) := by
  intro fuel
  induction fuel with
  | zero => intro cwd path; simp [dir_totals]
  | succ fuel ih =>
    intro cwd path
    rw [dir_totals, dir_totals]
    cases scandir sys cwd path Gls.filter_show_hidden with
    | error msg => simp
    | ok entries =>
      cases entries with
      | nil => simp
      | cons e es =>
        simp only []
        rw [dir_totals_loop_mode sys ff _ _ (fun p => ih _ p) (e :: es) 0 [] []]
        cases dir_totals_loop sys ff
            (fun p d => dir_totals sys ff fuel ((sys.chdir cwd path).getD cwd) p d)
            ((sys.chdir cwd path).getD cwd) false (e :: es) (0, []) with
        | none => simp
        | some r => cases opendir_dot sys cwd <;> simp

theorem compute_dir_size_loop_stored {W : Type} (sys : Sys W) (ff : FilterFn) (fuel : Nat)
    (hdet : DetachedAgrees sys ff fuel) (hsto : StoredAgrees sys ff fuel)
    (cur : Nat) (pre : List Int) (hpre : pre.length = cur) (cwd : W) :
    ∀ (entries : List Dirent) (st : CState W) (t : Int) (sl post : List Int),
      st.cwd = cwd → st.sizes = pre ++ (t :: (sl ++ post)) → st.dir_index = cur + sl.length →
      st.sizes.length = st.array_size → 0 < st.array_size →
      (dir_totals_loop sys ff (fun p d => dir_totals sys ff fuel cwd p d) cwd false
          entries (t, sl) = none →
        compute_dir_size_loop sys ff (fun p s d => compute_dir_size_r sys ff fuel p s d)
          cur false entries st = none) ∧
      (∀ r, dir_totals_loop sys ff (fun p d => dir_totals sys ff fuel cwd p d) cwd false
          entries (t, sl) = some r →
        ∃ (st' : CState W) (post' : List Int),
          compute_dir_size_loop sys ff (fun p s d => compute_dir_size_r sys ff fuel p s d)
            cur false entries st = some st' ∧
          st'.cwd = cwd ∧ st'.dir_index = cur + r.2.length ∧
          st'.sizes.length = st'.array_size ∧ 0 < st'.array_size ∧
          st'.sizes = pre ++ (r.1 :: (r.2 ++ post'))) := by
  intro entries
  induction entries with
  | nil =>
    intro st t sl post hcwd hsz hidx hlen hcap
    refine ⟨fun h => ?_, fun r hr => ?_⟩
    · simp [dir_totals_loop] at h
    · simp only [dir_totals_loop, Option.some.injEq] at hr
      subst hr
      exact ⟨st, post, rfl, hcwd, hidx, hlen, hcap, hsz⟩
  | cons e rest ih =>
    intro st t sl post hcwd hsz hidx hlen hcap
    subst hcwd
    rw [dir_totals_loop, compute_dir_size_loop]
    by_cases hdir : e.d_type = DT_DIR
    · simp only [hdir, if_true]
      by_cases hh : e.d_name.head? = some '.' ∧ ff = FilterFn.filter_hidden
      · -- detached sub-computation
        have hh' : (e.d_name.head? = some '.' ∧ ff = FilterFn.filter_hidden)
            ∨ false = true := Or.inl hh
        simp only [if_pos hh']
        rw [hdet e.d_name sys.junk st.array_size st.cwd hcap]
        cases hsub : dir_totals sys ff fuel st.cwd e.d_name true with
        | none => simp
        | some sub =>
          simp only [Option.map_some', List.getElem?_cons_zero]
          rw [hsz, add_at_append pre (sl ++ post) t sub.1 cur hpre]
          simp only []
          exact ih _ (t + sub.1) sl post rfl rfl hidx
            (by simp only []; rw [← hlen, hsz]; simp) hcap
      · -- sub-computation with its own slot
        have hh' : ¬ ((e.d_name.head? = some '.' ∧ ff = FilterFn.filter_hidden)
            ∨ false = true) := by simp [hh]
        simp only [if_neg hh']
        have hlen2 : st.dir_index + 1 ≤ st.array_size := by
          rw [← hlen, hsz, hidx]; simp; omega
        obtain ⟨hnone, hsome⟩ := hsto e.d_name { st with dir_index := st.dir_index + 1 }
          hlen hlen2 hcap
        cases hsub : dir_totals sys ff fuel st.cwd e.d_name false with
        | none =>
          have := hnone hsub
          refine ⟨fun _ => ?_, fun r hr => by cases hr⟩
          rw [this]
        | some sub =>
          obtain ⟨st1, post1, hrun, hcwd1, hidx1, hlen1, hcap1, hsz1⟩ := hsome sub hsub
          have htake : st.sizes.take (st.dir_index + 1) = pre ++ (t :: sl) := by
            rw [hsz, hidx]
            have : pre ++ (t :: (sl ++ post)) = (pre ++ (t :: sl)) ++ post := by simp
            rw [this, List.take_left' (by simp; omega)]
          simp only [htake] at hsz1
          have hsz1' : st1.sizes = (pre ++ (t :: sl)) ++ (sub.1 :: (sub.2 ++ post1)) := hsz1
          have hget : st1.sizes[st.dir_index + 1]? = some sub.1 := by
            rw [hsz1']
            exact getElem?_append_cons _ _ _ _ (by simp; omega)
          have hsz1'' : st1.sizes = pre ++ (t :: ((sl ++ sub.1 :: sub.2) ++ post1)) := by
            rw [hsz1']; simp
          rw [hrun]
          simp only []
          rw [hget]
          simp only []
          rw [hsz1'', add_at_append pre _ t sub.1 cur hpre]
          simp only []
          exact ih _ (t + sub.1) (sl ++ sub.1 :: sub.2) post1 hcwd1 rfl
            (by simp only []; rw [hidx1, hidx]; simp; omega)
            (by simp only []; rw [← hlen1, hsz1'']; simp) hcap1
    · simp only [hdir, if_false]
      by_cases hreg : e.d_type = DT_REG
      · simp only [hreg, if_true]
        cases sys.stat st.cwd e.d_name with
        | error msg => simp only []; exact ih st t sl post rfl hsz hidx hlen hcap
        | ok st_size =>
          simp only []
          rw [hsz, add_at_append pre (sl ++ post) t st_size cur hpre]
          simp only []
          exact ih _ (t + st_size) sl post rfl rfl hidx
            (by simp only []; rw [← hlen, hsz]; simp) hcap
      · simp only [hreg, if_false]
        exact ih st t sl post rfl hsz hidx hlen hcap

theorem realloc_step {W : Type} (junk : Int) (st : CState W)
    (hlen : st.sizes.length = st.array_size) (hidx : st.dir_index ≤ st.array_size)
    (hcap : 0 < st.array_size) :
    ∃ (x : Int) (post : List Int),
      (if st.dir_index ≥ st.array_size then
          ({ st with array_size := st.array_size * 2,
                     sizes := realloc st.sizes (st.array_size * 2) junk } : CState W)
        else st)
      = { sizes := st.sizes.take st.dir_index ++ (x :: post), dir_index := st.dir_index,
          array_size := (st.sizes.take st.dir_index ++ (x :: post)).length, cwd := st.cwd } := by
  by_cases h : st.dir_index ≥ st.array_size
  · have he : st.dir_index = st.sizes.length := by omega
    refine ⟨junk, List.replicate (st.array_size - 1) junk, ?_⟩
    rw [if_pos h]
    have h1 : realloc st.sizes (st.array_size * 2) junk
        = st.sizes.take st.dir_index ++ (junk :: List.replicate (st.array_size - 1) junk) := by
      unfold realloc
      rw [he, List.take_length, List.take_of_length_le (by omega), hlen,
        show st.array_size * 2 - st.array_size = (st.array_size - 1) + 1 by omega,
        List.replicate_succ]
    rw [h1]
    congr 1
    rw [he, List.take_length]
    simp
    omega
  · have hlt : st.dir_index < st.sizes.length := by omega
    refine ⟨st.sizes[st.dir_index], st.sizes.drop (st.dir_index + 1), ?_⟩
    rw [if_neg h]
    have h1 : st.sizes.take st.dir_index ++ (st.sizes[st.dir_index] ::
        st.sizes.drop (st.dir_index + 1)) = st.sizes := by
      rw [← List.drop_eq_getElem_cons hlt, List.take_append_drop]
    rw [h1, hlen]

theorem compute_dir_size_r_stored {W : Type} (sys : Sys W) (ff : FilterFn) :
    ∀ fuel, StoredAgrees sys ff fuel := by
  intro fuel
  induction fuel with
  | zero =>
    intro path st _ _ _
    exact ⟨fun _ => rfl, fun r hr => by simp [dir_totals] at hr⟩
  | succ fuel ih =>
    intro path st hlen hidx hcap
    obtain ⟨x, post, hstep⟩ := realloc_step sys.junk st hlen hidx hcap
    have hpre : (st.sizes.take st.dir_index).length = st.dir_index := by
      rw [List.length_take]; omega
    have hloop := compute_dir_size_loop_stored sys ff fuel
      (compute_dir_size_r_detached sys ff fuel) ih st.dir_index
      (st.sizes.take st.dir_index) hpre ((sys.chdir st.cwd path).getD st.cwd)
    rw [compute_dir_size_r, dir_totals]
    simp only [hstep]
    rw [store_at_append _ post x 0 _ hpre]
    simp only []
    cases hscan : scandir sys st.cwd path Gls.filter_show_hidden with
    | error msg =>
      dsimp only
      refine ⟨fun h => (by cases h), fun r hr => ?_⟩
      obtain rfl : (0, []) = r := by simpa using hr
      exact ⟨_, post, rfl, rfl, by simp, by simp, by simp, by simp⟩
    | ok entries =>
      cases entries with
      | nil =>
        dsimp only [dir_totals_loop]
        refine ⟨fun h => (by cases h), fun r hr => ?_⟩
        obtain rfl : (0, []) = r := by simpa using hr
        exact ⟨_, post, rfl, rfl, by simp, by simp, by simp, by simp⟩
      | cons e es =>
        simp only []
        obtain ⟨hn, hs⟩ := hloop (e :: es)
          { sizes := st.sizes.take st.dir_index ++ ((0 : Int) :: post),
            dir_index := st.dir_index,
            array_size := (st.sizes.take st.dir_index ++ (x :: post)).length,
            cwd := (sys.chdir st.cwd path).getD st.cwd } 0 [] post rfl (by simp) (by simp)
          (by simp) (by simp)
        cases hdl : dir_totals_loop sys ff
            (fun p d => dir_totals sys ff fuel ((sys.chdir st.cwd path).getD st.cwd) p d)
            ((sys.chdir st.cwd path).getD st.cwd) false (e :: es) (0, []) with
        | none =>
          rw [hn hdl]
          exact ⟨fun _ => rfl, fun r hr => (by cases hr)⟩
        | some r0 =>
          obtain ⟨st', post', hrun, hcwd', hidx', hlen', hcap', hsz'⟩ := hs r0 hdl
          rw [hrun]
          simp only []
          cases hsave : opendir_dot sys st.cwd with
          | none => exact ⟨fun _ => rfl, fun r hr => (by cases hr)⟩
          | some saved =>
            have hsaved := opendir_dot_eq sys st.cwd saved hsave
            subst hsaved
            refine ⟨fun h => (by cases h), fun r hr => ?_⟩
            simp only [Option.some.injEq] at hr
            subst hr
            exact ⟨_, post', rfl, rfl, hidx', hlen', hcap', hsz'⟩

/-! ### The print pass reads the slot of the directory it prints -/

theorem filter_hidden_le_show (d_name : CStr) (h : filter_hidden d_name ≠ 0) :
    filter_show_hidden d_name ≠ 0 := by
  have hhead : d_name.head? ≠ some '.' := by
    intro hc; simp [filter_hidden, hc] at h
  have h1 : strncmp d_name ".".toList 2 ≠ 0 := by
    cases d_name with
    | nil => simp [strncmp]
    | cons a as =>
      have ha : a ≠ '.' := by intro hc; simp [hc] at hhead
      have hn : a.toNat ≠ ('.' : Char).toNat := fun hc => ha (Char.ext (by
        exact UInt32.ext (by simpa [Char.toNat] using hc)))
      show strncmp (a :: as) ['.'] 2 ≠ 0
      rw [strncmp, if_neg ha]
      omega
  have h2 : strncmp d_name "..".toList 3 ≠ 0 := by
    cases d_name with
    | nil => simp [strncmp]
    | cons a as =>
      have ha : a ≠ '.' := by intro hc; simp [hc] at hhead
      have hn : a.toNat ≠ ('.' : Char).toNat := fun hc => ha (Char.ext (by
        exact UInt32.ext (by simpa [Char.toNat] using hc)))
      show strncmp (a :: as) ['.', '.'] 3 ≠ 0
      rw [strncmp, if_neg ha]
      omega
  unfold filter_show_hidden
  rw [if_neg (fun hc => hc.elim h1 h2)]
  norm_num

/-- The entries the active filter shows are those `filter_show_hidden` keeps
that the active filter accepts. -/
theorem filter_active_of_show (ff : FilterFn) (raw : List Dirent) :
    raw.filter (fun e => ff.call e.d_name != 0)
      = (raw.filter fun e => filter_show_hidden e.d_name != 0).filter
          (fun e => ff.call e.d_name != 0) := by
  rw [List.filter_filter]
  apply List.filter_congr
  intro e _
  cases ff with
  | filter_show_hidden => simp [FilterFn.call]
  | filter_hidden =>
    by_cases h : filter_hidden e.d_name = 0
    · simp [FilterFn.call, h]
    · simp [FilterFn.call, h, filter_hidden_le_show e.d_name h]

/-- For an entry `filter_show_hidden` keeps, getting a slot in the size pass
is being shown by the active filter. -/
theorem stored_iff_shown (ff : FilterFn) (d_name : CStr)
    (hshow : filter_show_hidden d_name ≠ 0) :
    ¬ ((d_name.head? = some '.' ∧ ff = FilterFn.filter_hidden) ∨ false = true)
      ↔ ff.call d_name ≠ 0 := by
  cases ff with
  | filter_show_hidden => simp [FilterFn.call, hshow]
  | filter_hidden =>
    by_cases h : d_name.head? = some '.'
    · simp [FilterFn.call, filter_hidden, h]
    · simp [FilterFn.call, filter_hidden, h]

theorem dir_totals_loop_extends {W : Type} (sys : Sys W) (ff : FilterFn) (cwd : W)
    (rec : CStr → Bool → Option (Int × List Int)) (dont_store : Bool) :
    ∀ (entries : List Dirent) (acc r : Int × List Int),
      dir_totals_loop sys ff rec cwd dont_store entries acc = some r →
      ∃ tail, r.2 = acc.2 ++ tail := by
  intro entries
  induction entries with
  | nil =>
    intro acc r h
    simp only [dir_totals_loop, Option.some.injEq] at h
    subst h
    exact ⟨[], by simp⟩
  | cons e rest ih =>
    intro acc r h
    rw [dir_totals_loop] at h
    by_cases hdir : e.d_type = DT_DIR
    · simp only [hdir, if_true] at h
      by_cases hh : (e.d_name.head? = some '.' ∧ ff = FilterFn.filter_hidden)
          ∨ dont_store = true
      · rw [if_pos hh] at h
        cases hsub : rec e.d_name true with
        | none => rw [hsub] at h; cases h
        | some sub =>
          rw [hsub] at h
          have := ih _ _ h
          exact this
      · rw [if_neg hh] at h
        cases hsub : rec e.d_name false with
        | none => rw [hsub] at h; cases h
        | some sub =>
          rw [hsub] at h
          obtain ⟨tail, ht⟩ := ih _ _ h
          exact ⟨(sub.1 :: sub.2) ++ tail, by rw [ht]; simp⟩
    · simp only [hdir, if_false] at h
      by_cases hreg : e.d_type = DT_REG
      · simp only [hreg, if_true] at h
        cases hst : sys.stat cwd e.d_name with
        | error msg =>
          rw [hst] at h
          exact ih _ _ h
        | ok st_size =>
          rw [hst] at h
          have := ih _ _ h
          exact this
      · simp only [hreg, if_false] at h
        exact ih _ _ h

/-- An entry that is not a directory is handled without the recursive call,
and leaves the cursor and the working directory as they were. -/
theorem parse_directory_loop_leaf {W : Type} (sys : Sys W) (bf : ByteFormatter)
    (depth : Nat) (e : Dirent) (hdir : e.d_type ≠ DT_DIR) (st : PState W) :
    ∃ o : Option (PState W),
      (∀ (recurse : CStr → PState W → Option (PState W)) (rest : List Dirent),
        parse_directory_loop sys bf recurse depth (e :: rest) st
          = match o with
            | none => none
            | some st' => parse_directory_loop sys bf recurse depth rest st') ∧
      (∀ st', o = some st' → st'.dir_index = st.dir_index ∧ st'.cwd = st.cwd) ∧
      (bf = ByteFormatter.byte_format_identity → o.isSome = true) := by
  by_cases hreg : e.d_type = DT_REG
  · cases hline : regular_file_line sys bf st.cwd e.d_name e.d_type with
    | none =>
      refine ⟨none, fun recurse rest => ?_, fun st' h => (by cases h), fun hbf => ?_⟩
      · rw [parse_directory_loop]
        simp only [if_neg hdir, if_pos hreg, hline]
      · exfalso
        subst hbf
        unfold regular_file_line at hline
        cases hst : sys.stat st.cwd e.d_name with
        | error msg => rw [hst] at hline; cases hline
        | ok sz =>
          rw [hst] at hline
          simp only [ByteFormatter.call] at hline
          cases hmd : fcompute_md5_strn sys st.cwd e.d_name (MD5_DIGEST_LENGTH * 2 + 1) with
          | error err => rw [hmd] at hline; cases hline
          | ok md5_str => rw [hmd] at hline; cases hline
    | some line =>
      refine ⟨some { out := st.out ++ indentation depth ' ' ++ line,
                     dir_index := st.dir_index, cwd := st.cwd },
        fun recurse rest => ?_, fun st' h => ?_, fun _ => rfl⟩
      · rw [parse_directory_loop]
        simp only [if_neg hdir, if_pos hreg, hline]
      · cases h; exact ⟨rfl, rfl⟩
  · by_cases hlnk : e.d_type = DT_LNK
    · refine ⟨some { out := st.out ++ indentation depth ' '
                       ++ symlink_line sys st.cwd e.d_name e.d_type,
                     dir_index := st.dir_index, cwd := st.cwd },
        fun recurse rest => ?_, fun st' h => ?_, fun _ => rfl⟩
      · rw [parse_directory_loop]
        simp only [if_neg hdir, if_neg hreg, if_pos hlnk]
      · cases h; exact ⟨rfl, rfl⟩
    · refine ⟨some { out := st.out ++ indentation depth ' ' ++ "| ".toList ++ e.d_name
                       ++ " (".toList ++ file_type_str e.d_type ++ ")\n".toList,
                     dir_index := st.dir_index, cwd := st.cwd },
        fun recurse rest => ?_, fun st' h => ?_, fun _ => rfl⟩
      · rw [parse_directory_loop]
        simp only [if_neg hdir, if_neg hreg, if_neg hlnk]
      · cases h; exact ⟨rfl, rfl⟩

theorem parse_directory_loop_agrees {W : Type} (sys : Sys W) (ff : FilterFn)
    (bf : ByteFormatter) (fuel : Nat) (hrec : ParseAgrees sys ff bf fuel)
    (sizes : List Int) (depth : Nat) (cwd : W) :
    ∀ (entries : List Dirent), (∀ e ∈ entries, filter_show_hidden e.d_name ≠ 0) →
      ∀ (st : PState W) (acc r : Int × List Int) (tail pre post : List Int),
      st.cwd = cwd →
      dir_totals_loop sys ff (fun p d => dir_totals sys ff fuel cwd p d) cwd false
        entries acc = some r →
      r.2 = acc.2 ++ tail → sizes = pre ++ (tail ++ post) → pre.length = st.dir_index + 1 →
      parse_directory_loop sys bf
          (fun p s => parse_directory_r sys ff bf fuel p sizes s (depth + 1)) depth
          (entries.filter fun e => ff.call e.d_name != 0) st
        = parse_directory_loop sys bf
          (fun p s => print_with_totals_r sys ff bf fuel p s (depth + 1)) depth
          (entries.filter fun e => ff.call e.d_name != 0) st ∧
      (∀ p, parse_directory_loop sys bf
          (fun p s => parse_directory_r sys ff bf fuel p sizes s (depth + 1)) depth
          (entries.filter fun e => ff.call e.d_name != 0) st = some p →
        p.dir_index = st.dir_index + tail.length ∧ p.cwd = cwd) ∧
      (bf = ByteFormatter.byte_format_identity →
        (parse_directory_loop sys bf
          (fun p s => parse_directory_r sys ff bf fuel p sizes s (depth + 1)) depth
          (entries.filter fun e => ff.call e.d_name != 0) st).isSome = true) := by
  intro entries
  induction entries with
  | nil =>
    intro _ st acc r tail pre post hcwd hdt htail _ _
    simp only [dir_totals_loop, Option.some.injEq] at hdt
    subst hdt
    have : tail = [] := by simpa using htail
    subst this
    simp only [List.filter_nil, parse_directory_loop, true_and]
    refine ⟨fun p hp => ?_, fun _ => rfl⟩
    cases hp
    exact ⟨rfl, hcwd⟩
  | cons e rest ih =>
    intro hshow st acc r tail pre post hcwd hdt htail hsz hpre
    have hshow_e : filter_show_hidden e.d_name ≠ 0 := hshow e (List.mem_cons_self _ _)
    have hshow_rest : ∀ x ∈ rest, filter_show_hidden x.d_name ≠ 0 :=
      fun x hx => hshow x (List.mem_cons_of_mem _ hx)
    rw [dir_totals_loop] at hdt
    by_cases hdir : e.d_type = DT_DIR
    · simp only [hdir, if_true] at hdt
      by_cases hacc : ff.call e.d_name ≠ 0
      · -- a directory the filter shows: it has a slot
        have hst := (stored_iff_shown ff e.d_name hshow_e).2 hacc
        rw [if_neg hst] at hdt
        have hfilt : (ff.call e.d_name != 0) = true := by simpa using hacc
        simp only [List.filter_cons, hfilt, if_true]
        cases hsub : dir_totals sys ff fuel cwd e.d_name false with
        | none => rw [hsub] at hdt; cases hdt
        | some sub =>
          rw [hsub] at hdt
          simp only [] at hdt
          obtain ⟨tail2, ht2⟩ := dir_totals_loop_extends sys ff cwd _ false rest _ r hdt
          have htl : tail = sub.1 :: (sub.2 ++ tail2) := by
            have : acc.2 ++ tail = acc.2 ++ (sub.1 :: (sub.2 ++ tail2)) := by
              rw [← htail, ht2]; simp
            exact List.append_cancel_left this
          subst htl
          obtain ⟨heq, hidx, hret⟩ := hrec e.d_name sizes
            { out := st.out ++ indentation depth '-', dir_index := st.dir_index + 1,
              cwd := st.cwd } (depth + 1) pre sub.1 sub.2 (tail2 ++ post)
            (by rw [hsz]; simp) hpre (by simp only []; rw [hcwd]; exact hsub)
          rw [parse_directory_loop, parse_directory_loop]
          simp only [hdir, if_true]
          rw [← heq]
          cases hrun : parse_directory_r sys ff bf fuel e.d_name sizes
              { out := st.out ++ indentation depth '-', dir_index := st.dir_index + 1,
                cwd := st.cwd } (depth + 1) with
          | none =>
            refine ⟨rfl, fun p hp => (by cases hp), fun hbf => ?_⟩
            have := hret hbf
            rw [hrun] at this
            cases this
          | some p2 =>
            obtain ⟨hi2, hc2⟩ := hidx p2 hrun
            simp only [] at hi2 hc2
            obtain ⟨heq3, hidx3, hret3⟩ := ih hshow_rest p2 _ r tail2
              (pre ++ (sub.1 :: sub.2)) post
              (by rw [hc2, hcwd]) hdt ht2 (by rw [hsz]; simp)
              (by rw [hi2]; simp; omega)
            refine ⟨heq3, fun p hp => ?_, hret3⟩
            obtain ⟨h1, h2⟩ := hidx3 p hp
            refine ⟨?_, h2⟩
            rw [h1, hi2]; simp; omega
      · -- a hidden directory under `filter_hidden`: no slot, not visited
        have hst : (e.d_name.head? = some '.' ∧ ff = FilterFn.filter_hidden)
            ∨ false = true := by
          by_contra hc
          exact hacc ((stored_iff_shown ff e.d_name hshow_e).1 hc)
        rw [if_pos hst] at hdt
        have hfilt : (ff.call e.d_name != 0) = false := by simpa using hacc
        simp only [List.filter_cons, hfilt, Bool.false_eq_true, if_false]
        cases hsub : dir_totals sys ff fuel cwd e.d_name true with
        | none => rw [hsub] at hdt; cases hdt
        | some sub =>
          rw [hsub] at hdt
          exact ih hshow_rest st _ r tail pre post hcwd hdt htail hsz hpre
    · simp only [hdir, if_false] at hdt
      -- the slots do not move over an entry that is not a directory
      have hdt' : ∃ acc', acc'.2 = acc.2 ∧
          dir_totals_loop sys ff (fun p d => dir_totals sys ff fuel cwd p d) cwd false
            rest acc' = some r := by
        by_cases hreg : e.d_type = DT_REG
        · simp only [hreg, if_true] at hdt
          cases hst : sys.stat cwd e.d_name with
          | error msg => rw [hst] at hdt; exact ⟨acc, rfl, hdt⟩
          | ok sz => rw [hst] at hdt; exact ⟨(acc.1 + sz, acc.2), rfl, hdt⟩
        · simp only [hreg, if_false] at hdt
          exact ⟨acc, rfl, hdt⟩
      obtain ⟨acc', hacc2, hdtr⟩ := hdt'
      by_cases hacc : (ff.call e.d_name != 0) = true
      · simp only [List.filter_cons, hacc, if_true]
        obtain ⟨o, hstep, hkeep, hsome⟩ := parse_directory_loop_leaf sys bf depth e hdir st
        rw [hstep, hstep]
        cases o with
        | none =>
          refine ⟨rfl, fun p hp => (by cases hp), fun hbf => ?_⟩
          have := hsome hbf
          cases this
        | some st' =>
          obtain ⟨hi, hc⟩ := hkeep st' rfl
          simp only []
          obtain ⟨heq3, hidx3, hret3⟩ := ih hshow_rest st' acc' r tail pre post
            (by rw [hc, hcwd])
            hdtr (by rw [hacc2]; exact htail) hsz (by rw [hi]; exact hpre)
          refine ⟨heq3, fun p hp => ?_, hret3⟩
          obtain ⟨h1, h2⟩ := hidx3 p hp
          exact ⟨by rw [h1, hi], h2⟩
      · simp only [List.filter_cons, hacc, Bool.false_eq_true, if_false]
        exact ih hshow_rest st acc' r tail pre post hcwd hdtr (by rw [hacc2]; exact htail)
          hsz hpre

theorem recorded_total_eq {W : Type} (sys : Sys W) (ff : FilterFn) (fuel : Nat) (cwd : W)
    (path : CStr) (a : Int) (l : List Int)
    (h : dir_totals sys ff fuel cwd path false = some (a, l)) :
    recorded_total sys ff fuel cwd path = some a := by
  obtain ⟨-, hs⟩ := compute_dir_size_r_stored sys ff fuel path
    { sizes := List.replicate 10 0, dir_index := 0, array_size := 10, cwd := cwd }
    (by simp) (by simp) (by simp)
  obtain ⟨st', post, hrun, -, -, -, -, hsz⟩ := hs (a, l) h
  unfold recorded_total compute_dir_size
  rw [hrun]
  simp only [hsz]
  simp

theorem parse_directory_r_agrees {W : Type} (sys : Sys W) (ff : FilterFn)
    (bf : ByteFormatter) : ∀ fuel, ParseAgrees sys ff bf fuel := by
  intro fuel
  induction fuel with
  | zero =>
    intro path sizes st depth pre a l post _ _ hdt
    simp [dir_totals] at hdt
  | succ fuel ih =>
    intro path sizes st depth pre a l post hsz hpre hdt
    have hrec := recorded_total_eq sys ff (fuel + 1) st.cwd path a l hdt
    have hread : sizes[st.dir_index]? = some a := by
      rw [hsz]; exact getElem?_append_cons pre (l ++ post) a st.dir_index hpre
    rw [dir_totals] at hdt
    rw [parse_directory_r, print_with_totals_r]
    simp only [scandir] at hdt ⊢
    cases hrd : sys.readdir st.cwd path with
    | error msg =>
      rw [hrd] at hdt
      simp only [Option.some.injEq, Prod.mk.injEq] at hdt
      refine ⟨rfl, fun p hp => ?_, fun _ => rfl⟩
      simp only [Option.some.injEq] at hp
      subst hp
      simp [← hdt.2]
    | ok raw =>
      rw [hrd] at hdt
      simp only [] at hdt ⊢
      rw [hread, hrec]
      have hloop := parse_directory_loop_agrees sys ff bf fuel ih sizes depth
        ((sys.chdir st.cwd path).getD st.cwd)
        (raw.filter fun e => filter_show_hidden e.d_name != 0)
        (fun e he => by simpa using (List.mem_filter.1 he).2)
      rw [filter_active_of_show ff raw]
      have hdl : dir_totals_loop sys ff
            (fun p d => dir_totals sys ff fuel ((sys.chdir st.cwd path).getD st.cwd) p d)
            ((sys.chdir st.cwd path).getD st.cwd) false
            (raw.filter fun e => filter_show_hidden e.d_name != 0) (0, []) = some (a, l) ∧
          ((raw.filter fun e => filter_show_hidden e.d_name != 0) ≠ [] →
            opendir_dot sys st.cwd = some st.cwd) := by
        cases hf : (raw.filter fun e => filter_show_hidden e.d_name != 0) with
        | nil =>
          rw [hf] at hdt
          exact ⟨by rw [dir_totals_loop]; exact hdt, fun h => absurd rfl h⟩
        | cons e es =>
          rw [hf] at hdt
          simp only [] at hdt
          cases hl : dir_totals_loop sys ff
              (fun p d => dir_totals sys ff fuel ((sys.chdir st.cwd path).getD st.cwd) p d)
              ((sys.chdir st.cwd path).getD st.cwd) false (e :: es) (0, []) with
          | none => rw [hl] at hdt; cases hdt
          | some r =>
            rw [hl] at hdt
            simp only [] at hdt
            cases hsave : opendir_dot sys st.cwd with
            | none => rw [hsave] at hdt; cases hdt
            | some saved =>
              rw [hsave] at hdt
              simp only [Option.some.injEq] at hdt
              rw [opendir_dot_eq sys st.cwd saved hsave, hdt]
              exact ⟨rfl, fun _ => rfl⟩
      -- the header line
      cases hhead : (if depth ≥ 1 then
          match (some a : Option Int) with
          | none => none
          | some size =>
            match bf.call size with
            | none => none
            | some size_str =>
              some ("| ".toList ++ path ++ " (directory - ".toList ++ size_str
                ++ ")\n".toList)
        else some []) with
      | none =>
        refine ⟨rfl, fun p hp => (by cases hp), fun hbf => ?_⟩
        exfalso
        subst hbf
        by_cases hd : depth ≥ 1
        · rw [if_pos hd] at hhead
          simp only [ByteFormatter.call] at hhead
          cases hhead
        · rw [if_neg hd] at hhead
          cases hhead
      | some text =>
        simp only []
        obtain ⟨heq, hidx, hret⟩ := hloop
          { out := st.out ++ text, dir_index := st.dir_index,
            cwd := (sys.chdir st.cwd path).getD st.cwd }
          (0, []) (a, l) l (pre ++ [a]) post rfl hdl.1 (by simp) (by rw [hsz]; simp)
          (by simp; omega)
        cases hents : ((raw.filter fun e => filter_show_hidden e.d_name != 0).filter
            fun e => ff.call e.d_name != 0) with
        | nil =>
          rw [hents] at hidx
          have h0 := (hidx _ (by rw [parse_directory_loop])).1
          simp only [] at h0
          refine ⟨rfl, fun p hp => ?_, fun _ => rfl⟩
          simp only [Option.some.injEq] at hp
          subst hp
          exact ⟨h0, rfl⟩
        | cons e es =>
          rw [hents] at heq hidx hret
          have hopen : opendir_dot sys st.cwd = some st.cwd := hdl.2 (by
            intro hc
            rw [hc] at hents
            cases hents)
          simp only [hopen]
          rw [← heq]
          cases hrun : parse_directory_loop sys bf
              (fun p s => parse_directory_r sys ff bf fuel p sizes s (depth + 1)) depth
              (e :: es) { out := st.out ++ text, dir_index := st.dir_index,
                          cwd := (sys.chdir st.cwd path).getD st.cwd } with
          | none =>
            refine ⟨rfl, fun p hp => (by cases hp), fun hbf => ?_⟩
            have := hret hbf
            rw [hrun] at this
            cases this
          | some st3 =>
            refine ⟨rfl, fun p hp => ?_, fun _ => rfl⟩
            simp only [Option.some.injEq] at hp
            subst hp
            exact ⟨(hidx st3 hrun).1, rfl⟩

/-- C3: the print pass reads, for every header line, the slot of the very
directory it prints. `parse_directory` (size pass, then print pass with the
cursor into the size sequence) prints exactly what `print_with_totals_r`
prints, the walk in which the size shown for a directory is the value
`compute_dir_size` records for that directory; and when both passes are over,
the cursor of the print pass stands where the index of the size pass stopped,
so no slot was skipped or read twice, whatever empty directories, failed
listings and hidden directories the tree holds. Whenever the size pass
returns, the print pass with the raw formatter returns as well: it never
reads outside the sequence. -/
theorem parse_directory_reads_recorded_totals {W : Type} (sys : Sys W) (ff : FilterFn)
    (bf : ByteFormatter) (fuel : Nat) (cwd : W) (out dir_path : CStr) :
    parse_directory sys ff bf fuel cwd out dir_path
      = (match compute_dir_size sys ff fuel cwd dir_path with
         | none => none
         | some c =>
           print_with_totals_r sys ff bf fuel dir_path
             { out := out, dir_index := 0, cwd := c.cwd } 0) ∧
    (∀ (c : CState W) (p : PState W),
      compute_dir_size sys ff fuel cwd dir_path = some c →
      parse_directory sys ff bf fuel cwd out dir_path = some p →
      p.dir_index = c.dir_index ∧ p.cwd = cwd ∧ c.cwd = cwd) ∧
    (∀ (c : CState W), compute_dir_size sys ff fuel cwd dir_path = some c →
      bf = ByteFormatter.byte_format_identity →
      (parse_directory sys ff bf fuel cwd out dir_path).isSome = true) := by
  obtain ⟨hnone, hsome⟩ := compute_dir_size_r_stored sys ff fuel dir_path
    { sizes := List.replicate 10 0, dir_index := 0, array_size := 10, cwd := cwd }
    (by simp) (by simp) (by simp)
  unfold parse_directory
  cases hdt : dir_totals sys ff fuel cwd dir_path false with
  | none =>
    have h := hnone hdt
    have h' : compute_dir_size sys ff fuel cwd dir_path = none := h
    rw [h']
    exact ⟨rfl, fun c p hc => (by cases hc), fun c hc => (by cases hc)⟩
  | some r =>
    obtain ⟨st', post, hrun, hcwd, hidx, -, -, hsz⟩ := hsome r hdt
    have hrun' : compute_dir_size sys ff fuel cwd dir_path = some st' := hrun
    rw [hrun']
    simp only []
    simp only [List.take_zero, List.nil_append] at hsz
    simp only [Nat.zero_add] at hidx
    simp only [] at hcwd
    obtain ⟨heq, hfin, hret⟩ := parse_directory_r_agrees sys ff bf fuel dir_path st'.sizes
      { out := out, dir_index := 0, cwd := st'.cwd } 0 [] r.1 r.2 post
      (by rw [hsz]; simp) rfl (by simp only []; rw [hcwd]; exact hdt)
    refine ⟨heq, fun c p hc hp => ?_, fun c _ hbf => hret hbf⟩
    simp only [Option.some.injEq] at hc
    subst hc
    obtain ⟨h1, h2⟩ := hfin p hp
    simp only [Nat.zero_add] at h1 h2
    exact ⟨by rw [h1, hidx], by rw [h2, hcwd], hcwd⟩

/-! ### Standard output is only appended to -/

/-- C9: a directory at depth `d ≥ 1` whose listing succeeds and holds no
entry the active filter accepts (it is empty, or holds only entries the filter
rejects): `parse_directory_r` prints its header line and then the single line
`*** empty directory ***` behind `3*d` spaces, and nothing else; cursor and
working directory stay as they were. The header shows the slot under the
cursor, which is taken to exist and to be formatted without a fault, as it is
in every run of `parse_directory`. The header line itself comes behind
`3*(d-1)` dashes, which the loop of the parent prints just before the call, so
the marker is indented three characters deeper. -/
theorem parse_directory_r_empty_directory {W : Type} (sys : Sys W) (ff : FilterFn)
    (bf : ByteFormatter) (fuel : Nat) (path : CStr) (sizes : List Int) (st : PState W)
    (depth : Nat) (raw : List Dirent) (size : Int) (size_str : CStr)
    (hdepth : 1 ≤ depth)
    (hrd : sys.readdir st.cwd path = .ok raw)
    (hshown : ∀ e ∈ raw, ff.call e.d_name = 0)
    (hsize : sizes[st.dir_index]? = some size)
    (hfmt : bf.call size = some size_str) :
    parse_directory_r sys ff bf (fuel + 1) path sizes st depth
      = some { out := st.out
                 ++ ("| ".toList ++ path ++ " (directory - ".toList ++ size_str ++ ")\n".toList)
                 ++ (List.replicate (3 * depth) ' ' ++ "*** empty directory ***\n".toList),
               dir_index := st.dir_index, cwd := st.cwd } ∧
    (∀ (recurse : CStr → PState W → Option (PState W)) (e : Dirent) (rest : List Dirent)
        (s : PState W), e.d_type = DT_DIR →
      parse_directory_loop sys bf recurse (depth - 1) (e :: rest) s
        = match recurse e.d_name
            { out := s.out ++ indentation (depth - 1) '-', dir_index := s.dir_index + 1,
              cwd := s.cwd } with
          | none => none
          | some s2 => parse_directory_loop sys bf recurse (depth - 1) rest s2) ∧
    (indentation (depth - 1) '-').length + 3 = 3 * depth := by
  refine ⟨?_, ?_, ?_⟩
  · have hscan : scandir sys st.cwd path ff.call = .ok [] := by
      unfold scandir
      rw [hrd]
      simp only []
      congr 1
      rw [List.filter_eq_nil_iff]
      intro e he
      simp [hshown e he]
    have hd : depth ≥ 1 := hdepth
    rw [parse_directory_r]
    simp only [hscan, if_pos hd, hsize, hfmt, indentation]
    simp [Nat.mul_comm]
  · intro recurse e rest s hdir
    rw [parse_directory_loop]
    simp only [if_pos hdir]
  · unfold indentation
    split
    · simp; omega
    · simp; omega

/-- Witness for `parse_directory_r_empty_directory`: the empty directory `e`
read at depth 1 with the cursor on a slot that holds 0. -/
theorem parse_directory_r_empty_directory_witness :
    parse_directory_r treeSys FilterFn.filter_show_hidden ByteFormatter.byte_format_identity
        (0 + 1) "e".toList [0, 0] { out := [], dir_index := 1, cwd := empty_dir_tree } 1
      = some { out := [] ++ ("| ".toList ++ "e".toList ++ " (directory - ".toList ++ "0".toList
                 ++ ")\n".toList)
                 ++ (List.replicate (3 * 1) ' ' ++ "*** empty directory ***\n".toList),
               dir_index := 1, cwd := empty_dir_tree } :=
  (parse_directory_r_empty_directory treeSys FilterFn.filter_show_hidden
    ByteFormatter.byte_format_identity 0 "e".toList [0, 0]
    { out := [], dir_index := 1, cwd := empty_dir_tree } 1
    [{ d_name := ".".toList, d_type := DT_DIR }, { d_name := "..".toList, d_type := DT_DIR }]
    0 "0".toList (by decide) rfl (by decide) rfl rfl).1

set_option maxRecDepth 100000 in
/-- Witness for `parse_directory_reads_recorded_totals`: `sample_tree` listed
with `filter_hidden` and `byte_format_human`. Both passes end on slot 3. -/
theorem parse_directory_reads_recorded_totals_witness :
    compute_dir_size treeSys FilterFn.filter_hidden 5 sample_tree "root".toList
      = some sample_sizes ∧
    parse_directory treeSys FilterFn.filter_hidden ByteFormatter.byte_format_human 5
        sample_tree [] "root".toList = some sample_report ∧
    sample_report.dir_index = sample_sizes.dir_index ∧ sample_report.cwd = sample_tree ∧
    sample_sizes.cwd = sample_tree :=
  ⟨rfl, rfl,
    (parse_directory_reads_recorded_totals treeSys FilterFn.filter_hidden
      ByteFormatter.byte_format_human 5 sample_tree [] "root".toList).2.1
      sample_sizes sample_report rfl rfl⟩

/-- C1 (failing input): `root` holds a directory `d` that can be read but not
searched and a file `f` of 7 bytes; `d` lists a file `f` that `stat` cannot
reach. `chdir("d")` fails unnoticed, so `stat("f")` hits `root/f`: the size
pass records 7 for `d` and 14 for `root`, under both filters, where the
totals of the specification are 0 and 7. -/
theorem compute_dir_size_unsearchable_directory :
    ((compute_dir_size treeSys FilterFn.filter_hidden 5 unsearchable_tree "root".toList).map
      fun c => c.sizes.take (c.dir_index + 1)) = some [14, 7] ∧
    ((compute_dir_size treeSys FilterFn.filter_show_hidden 5 unsearchable_tree
      "root".toList).map fun c => c.sizes.take (c.dir_index + 1)) = some [14, 7] ∧
    specTotal unsearchable_root = 7 ∧
    specSlots FilterFn.filter_hidden unsearchable_root = [7, 0] := by
  decide

/-- C2 (failing input): `root` holds a directory `d` that can be read but not
searched and a directory `s` with a subdirectory `u`; `d` lists a directory
`s` that cannot be reached. `chdir("d")` fails unnoticed, so the entry `s` of
`d` is scanned as `root/s`: the size pass fills six slots (`root`, `d`, `s`,
`u`, `s`, `u`), where the pre-order list of the shown directories has five
(`root`, `d`, `d/s`, `s`, `s/u`). -/
theorem compute_dir_size_slots_unsearchable_directory :
    ((compute_dir_size treeSys FilterFn.filter_hidden 5 unsearchable_tree_dirs
      "root".toList).map fun c => c.sizes.take (c.dir_index + 1)) = some [6, 3, 3, 3, 3, 3] ∧
    ((compute_dir_size treeSys FilterFn.filter_show_hidden 5 unsearchable_tree_dirs
      "root".toList).map fun c => c.sizes.take (c.dir_index + 1)) = some [6, 3, 3, 3, 3, 3] ∧
    specSlots FilterFn.filter_hidden unsearchable_root_dirs = [3, 0, 0, 3, 3] ∧
    specSlots FilterFn.filter_show_hidden unsearchable_root_dirs = [3, 0, 0, 3, 3] := by
  decide

/-! ### The size pass on trees whose readable directories can be searched -/

theorem lookup_of_mem_nodup (l : List (CStr × Node)) (h : (l.map Prod.fst).Nodup)
    (k : CStr) (v : Node) (hm : (k, v) ∈ l) : l.lookup k = some v := by
  induction l with
  | nil => cases hm
  | cons p rest ih =>
    obtain ⟨k', v'⟩ := p
    simp only [List.map_cons, List.nodup_cons] at h
    rcases List.mem_cons.1 hm with heq | hin
    · cases heq
      simp [List.lookup]
    · have hne : k ≠ k' := by
        intro hc
        subst hc
        exact h.1 (List.mem_map.2 ⟨(k, v), hin, rfl⟩)
      have hb : (k == k') = false := by simpa using hne
      rw [List.lookup, hb]
      exact ih h.2 hin

theorem filter_show_hidden_ne_dot (name : CStr) (h : filter_show_hidden name ≠ 0) :
    name ≠ ".".toList := by
  intro hc
  subst hc
  exact h (by decide)

theorem resolve_entry (es : List (CStr × Node)) (name : CStr) (hne : name ≠ ".".toList) :
    (Node.dir true true es).resolve name = es.lookup name := by
  unfold Node.resolve
  rw [if_neg hne]

theorem dir_totals_loop_tree (ff : FilterFn) (fuel : Nat) (es : List (CStr × Node))
    (hrec : ∀ (name : CStr) (r x : Bool) (es' : List (CStr × Node)),
      es.lookup name = some (.dir r x es') → name ≠ ".".toList →
      (Node.dir r x es').searchable = true → (Node.dir r x es').depth ≤ fuel →
      dir_totals treeSys ff fuel (.dir true true es) name false
        = some (specTotal (.dir r x es'), (specSlots ff (.dir r x es')).tail)) :
    ∀ (rest : List (CStr × Node)) (t : Int) (sl : List Int),
      (∀ p ∈ rest, es.lookup p.1 = some p.2) →
      (∀ p ∈ rest, filter_show_hidden p.1 ≠ 0) →
      Node.searchable.go rest = true → Node.depth.go rest ≤ fuel →
      dir_totals_loop treeSys ff
          (fun p d => dir_totals treeSys ff fuel (.dir true true es) p d)
          (.dir true true es) false
          (rest.map fun e => { d_name := e.1, d_type := e.2.d_type }) (t, sl)
        = some (t + specTotal.go rest, sl ++ specSlots.go ff rest) := by
  intro rest
  induction rest with
  | nil =>
    intro t sl _ _ _ _
    simp [dir_totals_loop, specTotal.go, specSlots.go]
  | cons q rest ih =>
    obtain ⟨name, child⟩ := q
    intro t sl hlook hshow hwf hdepth
    have hlook_q : es.lookup name = some child := hlook (name, child) (List.mem_cons_self _ _)
    have hshow_q : filter_show_hidden name ≠ 0 := hshow (name, child) (List.mem_cons_self _ _)
    have hne : name ≠ ".".toList := filter_show_hidden_ne_dot name hshow_q
    have hres : (Node.dir true true es).resolve name = some child := by
      rw [resolve_entry es name hne, hlook_q]
    rw [Node.searchable.go, Bool.and_eq_true] at hwf
    rw [Node.depth.go] at hdepth
    have ih' := fun t sl => ih t sl (fun p hp => hlook p (List.mem_cons_of_mem _ hp))
      (fun p hp => hshow p (List.mem_cons_of_mem _ hp)) hwf.2 (le_trans (le_max_right _ _) hdepth)
    rw [List.map_cons, dir_totals_loop]
    cases child with
    | reg st_size digest =>
      have h1 : ¬ (Node.reg st_size digest).d_type = DT_DIR := by
        show ¬ DT_REG = DT_DIR
        decide
      have h2 : (Node.reg st_size digest).d_type = DT_REG := rfl
      simp only [if_neg h1, if_pos h2]
      cases st_size with
      | none =>
        have hst : treeSys.stat (.dir true true es) name
            = .error "Permission denied".toList := by
          show tree_stat (.dir true true es) name = _
          unfold tree_stat
          rw [hres]
        rw [hst]
        simp only []
        rw [ih' t sl]
        simp [specTotal.go, specTotal, specSlots.go]
      | some s =>
        have hst : treeSys.stat (.dir true true es) name = .ok s := by
          show tree_stat (.dir true true es) name = _
          unfold tree_stat
          rw [hres]
        rw [hst]
        simp only []
        rw [ih' (t + s) sl]
        simp [specTotal.go, specTotal, specSlots.go, add_assoc]
    | lnk target absolute =>
      have h1 : ¬ (Node.lnk target absolute).d_type = DT_DIR := by
        show ¬ DT_LNK = DT_DIR
        decide
      have h2 : ¬ (Node.lnk target absolute).d_type = DT_REG := by
        show ¬ DT_LNK = DT_REG
        decide
      simp only [if_neg h1, if_neg h2]
      rw [ih' t sl]
      simp [specTotal.go, specTotal, specSlots.go]
    | other ty =>
      have hty : ty ≠ DT_DIR ∧ ty ≠ DT_REG := by
        have := hwf.1
        simpa [Node.searchable] using this
      have h1 : ¬ (Node.other ty).d_type = DT_DIR := hty.1
      have h2 : ¬ (Node.other ty).d_type = DT_REG := hty.2
      simp only [if_neg h1, if_neg h2]
      rw [ih' t sl]
      simp [specTotal.go, specTotal, specSlots.go]
    | dir r x es' =>
      have h1 : (Node.dir r x es').d_type = DT_DIR := rfl
      simp only [if_pos h1]
      have hsub := hrec name r x es' hlook_q hne hwf.1 (le_trans (le_max_left _ _) hdepth)
      have hslots : specSlots ff (.dir r x es')
          = specTotal (.dir r x es') :: (specSlots ff (.dir r x es')).tail := by
        rw [specSlots]; rfl
      by_cases hh : (name.head? = some '.' ∧ ff = FilterFn.filter_hidden) ∨ false = true
      · rw [if_pos hh, dir_totals_mode, hsub]
        simp only [Option.map_some']
        rw [ih' _ sl]
        have hcall : ff.call name = 0 := by
          by_contra hc
          exact (stored_iff_shown ff name hshow_q).2 hc hh
        simp [specTotal.go, specSlots.go, hcall, add_assoc]
      · rw [if_neg hh, hsub]
        simp only []
        rw [ih' _ _]
        have hcall : ff.call name ≠ 0 := (stored_iff_shown ff name hshow_q).1 hh
        rw [specTotal.go, specSlots.go, if_pos hcall]
        conv_rhs => rw [hslots]
        simp [add_assoc]

theorem opendir_dot_tree (x : Bool) (es : List (CStr × Node)) :
    opendir_dot treeSys (.dir true x es) = some (.dir true x es) := rfl

theorem dir_totals_tree (ff : FilterFn) :
    ∀ (fuel : Nat) (cwd : Node) (path : CStr) (r x : Bool) (es : List (CStr × Node)),
      cwd.resolve path = some (.dir r x es) →
      (Node.dir r x es).searchable = true → (Node.dir r x es).depth ≤ fuel →
      (r = true → es ≠ [] → opendir_dot treeSys cwd = some cwd) →
      dir_totals treeSys ff fuel cwd path false
        = some (specTotal (.dir r x es), (specSlots ff (.dir r x es)).tail) := by
  intro fuel
  induction fuel with
  | zero =>
    intro cwd path r x es _ _ hd _
    rw [Node.depth] at hd
    omega
  | succ fuel ih =>
    intro cwd path r x es hres hwf hd hopen
    rw [Node.depth] at hd
    rw [Node.searchable, Bool.and_eq_true, Bool.and_eq_true] at hwf
    obtain ⟨⟨hrx, hnames⟩, hgo⟩ := hwf
    rw [dir_totals]
    unfold scandir
    cases r with
    | false =>
      have hrd : treeSys.readdir cwd path = .error "Permission denied".toList := by
        show tree_readdir cwd path = _
        unfold tree_readdir
        rw [hres]
      rw [hrd]
      simp [specTotal, specSlots]
    | true =>
      have hx : x = true := by simpa using hrx
      subst hx
      have hrd : treeSys.readdir cwd path = .ok (tree_dirents es) := by
        show tree_readdir cwd path = _
        unfold tree_readdir
        rw [hres]
      have hcd : treeSys.chdir cwd path = some (.dir true true es) := by
        show tree_chdir cwd path = _
        unfold tree_chdir
        rw [hres]
      rw [names_ok, Bool.and_eq_true] at hnames
      have hnodup : (es.map Prod.fst).Nodup := by simpa using hnames.1
      have hshow : ∀ p ∈ es, filter_show_hidden p.1 ≠ 0 := by
        intro p hp
        have := List.all_eq_true.1 hnames.2 p hp
        simpa using this
      have hfilter : (tree_dirents es).filter (fun e => filter_show_hidden e.d_name != 0)
          = es.map fun e => ({ d_name := e.1, d_type := e.2.d_type } : Dirent) := by
        have hd1 : (filter_show_hidden ".".toList != 0) = false := by decide
        have hd2 : (filter_show_hidden "..".toList != 0) = false := by decide
        unfold tree_dirents
        rw [List.filter_cons, hd1, List.filter_cons, hd2]
        simp only [Bool.false_eq_true, if_false]
        rw [List.filter_eq_self]
        intro d hdm
        obtain ⟨p, hp, rfl⟩ := List.mem_map.1 hdm
        simpa using hshow p hp
      rw [hrd]
      simp only []
      rw [hfilter, hcd]
      simp only [Option.getD_some]
      have hloop := dir_totals_loop_tree ff fuel es
        (fun name r' x' es' hl hne hwf' hd' =>
          ih (.dir true true es) name r' x' es' (by rw [resolve_entry es name hne, hl]) hwf' hd'
            (fun _ _ => opendir_dot_tree true es))
        es 0 []
        (fun p hp => lookup_of_mem_nodup es hnodup p.1 p.2 hp) hshow hgo (by omega)
      cases hm : (es.map fun e => ({ d_name := e.1, d_type := e.2.d_type } : Dirent)) with
      | nil =>
        have hes : es = [] := List.map_eq_nil_iff.1 hm
        subst hes
        simp [specTotal, specSlots, specTotal.go, specSlots.go]
      | cons d ds =>
        rw [hm] at hloop
        simp only []
        rw [hloop]
        have hne : es ≠ [] := by
          intro hc
          subst hc
          cases hm
        simp only []
        rw [hopen rfl hne]
        simp [specTotal, specSlots]

/-- On a tree in which every directory that can be read can also be searched
(and names are distinct and are not "." or ".."), the size pass, started in a
working directory that `opendir(".")` can open and given fuel for the depth of
the tree, returns, and the slots it fills are the pre-order list of the totals
of the shown directories, the total of the root at index 0; the working
directory is the one it started from. -/
theorem compute_dir_size_tree (ff : FilterFn) (fuel : Nat) (cwd : Node) (path : CStr)
    (r x : Bool) (es : List (CStr × Node))
    (hres : cwd.resolve path = some (.dir r x es))
    (hwf : (Node.dir r x es).searchable = true) (hfuel : (Node.dir r x es).depth ≤ fuel)
    (hopen : opendir_dot treeSys cwd = some cwd) :
    ∃ c, compute_dir_size treeSys ff fuel cwd path = some c ∧
      c.sizes.take (c.dir_index + 1) = specSlots ff (.dir r x es) ∧
      c.sizes[0]? = some (specTotal (.dir r x es)) ∧ c.cwd = cwd := by
  have hdt := dir_totals_tree ff fuel cwd path r x es hres hwf hfuel (fun _ _ => hopen)
  obtain ⟨-, hs⟩ := compute_dir_size_r_stored treeSys ff fuel path
    { sizes := List.replicate 10 0, dir_index := 0, array_size := 10, cwd := cwd }
    (by simp) (by simp) (by simp)
  obtain ⟨c, post, hrun, hcwd, hidx, -, -, hsz⟩ := hs _ hdt
  refine ⟨c, hrun, ?_, ?_, hcwd⟩
  · simp only [List.take_zero, List.nil_append, Nat.zero_add] at hsz hidx
    have hslots : specSlots ff (.dir r x es)
        = specTotal (.dir r x es) :: (specSlots ff (.dir r x es)).tail := by
      rw [specSlots]; rfl
    rw [hsz, hidx, hslots]
    simp
  · simp only [List.take_zero, List.nil_append] at hsz
    rw [hsz]
    simp

/-- The size pass on `sample_tree`, an instance of `compute_dir_size_tree`. -/
theorem compute_dir_size_tree_witness :
    ∃ c, compute_dir_size treeSys FilterFn.filter_hidden 5 sample_tree "root".toList = some c ∧
      c.sizes.take (c.dir_index + 1) = [1149, 0, 0, 0] ∧
      c.sizes[0]? = some 1149 ∧ c.cwd = sample_tree := by
  obtain ⟨c, h1, h2, h3, h4⟩ := compute_dir_size_tree FilterFn.filter_hidden 5 sample_tree
    "root".toList true true _ rfl (by decide) (by decide) rfl
  exact ⟨c, h1, h2.trans (by decide), h3.trans (by decide), h4⟩

/-! ### The totals do not depend on the active filter -/

theorem dir_totals_loop_detached_filter {W : Type} (sys : Sys W) (ff ff' : FilterFn) (cwd : W)
    (rec rec' : CStr → Bool → Option (Int × List Int))
    (hrec : ∀ p, rec p true = rec' p true) :
    ∀ (entries : List Dirent) (acc : Int × List Int),
      dir_totals_loop sys ff rec cwd true entries acc
        = dir_totals_loop sys ff' rec' cwd true entries acc := by
  intro entries
  induction entries with
  | nil => intro acc; simp [dir_totals_loop]
  | cons e rest ih =>
    intro acc
    rw [dir_totals_loop, dir_totals_loop]
    by_cases hdir : e.d_type = DT_DIR
    · simp only [if_pos hdir, or_true, if_true]
      rw [hrec e.d_name]
      cases rec' e.d_name true with
      | none => rfl
      | some sub => exact ih _
    · simp only [if_neg hdir]
      by_cases hreg : e.d_type = DT_REG
      · simp only [if_pos hreg]
        cases sys.stat cwd e.d_name with
        | error msg => exact ih _
        | ok st_size => exact ih _
      · simp only [if_neg hreg]
        exact ih _

theorem dir_totals_detached_filter {W : Type} (sys : Sys W) (ff ff' : FilterFn) :
    ∀ (fuel : Nat) (cwd : W) (path : CStr),
      dir_totals sys ff fuel cwd path true = dir_totals sys ff' fuel cwd path true := by
  intro fuel
  induction fuel with
  | zero => intro cwd path; simp [dir_totals]
  | succ fuel ih =>
    intro cwd path
    rw [dir_totals, dir_totals]
    cases scandir sys cwd path Gls.filter_show_hidden with
    | error msg => rfl
    | ok entries =>
      cases entries with
      | nil => rfl
      | cons e es =>
        simp only []
        rw [dir_totals_loop_detached_filter sys ff ff' _ _ _ (fun p => ih _ p) (e :: es) _]

theorem recorded_total_eq_dir_totals {W : Type} (sys : Sys W) (ff : FilterFn) (fuel : Nat)
    (cwd : W) (path : CStr) :
    recorded_total sys ff fuel cwd path
      = (dir_totals sys ff fuel cwd path true).map Prod.fst := by
  rw [dir_totals_mode]
  cases hdt : dir_totals sys ff fuel cwd path false with
  | none =>
    obtain ⟨hn, -⟩ := compute_dir_size_r_stored sys ff fuel path
      { sizes := List.replicate 10 0, dir_index := 0, array_size := 10, cwd := cwd }
      (by simp) (by simp) (by simp)
    have h : compute_dir_size sys ff fuel cwd path = none := hn hdt
    simp [recorded_total, h]
  | some r =>
    rw [recorded_total_eq sys ff fuel cwd path r.1 r.2 hdt]
    rfl

/-- The value `compute_dir_size` records for a directory is the same under
both filters, hidden entries included in either case, and a run with its own
slot records what a detached run returns. -/
theorem recorded_total_filter_independent {W : Type} (sys : Sys W) (fuel : Nat) (cwd : W)
    (path : CStr) :
    recorded_total sys FilterFn.filter_hidden fuel cwd path
      = recorded_total sys FilterFn.filter_show_hidden fuel cwd path := by
  rw [recorded_total_eq_dir_totals, recorded_total_eq_dir_totals,
    dir_totals_detached_filter sys FilterFn.filter_hidden FilterFn.filter_show_hidden]

/-! ### The two filters -/

theorem char_toNat_ne_zero (c : Char) (h : c ≠ '\x00') : (c.toNat : Int) ≠ 0 := by
  intro hc
  apply h
  apply Char.ext
  apply UInt32.ext
  have h0 : c.toNat = 0 := by exact_mod_cast hc
  simpa [Char.toNat] using h0

theorem filter_show_hidden_eq_zero (name : CStr) (hnul : '\x00' ∉ name) :
    filter_show_hidden name = 0 ↔ name = ".".toList ∨ name = "..".toList := by
  constructor
  · intro h
    by_contra hne
    push_neg at hne
    obtain ⟨h1, h2⟩ := hne
    have hs1 : strncmp name ".".toList 2 ≠ 0 := by
      match name, hnul, h1 with
      | [], _, _ => simp [strncmp]
      | [a], _, h1 =>
        show strncmp [a] ['.'] 2 ≠ 0
        have ha : a ≠ '.' := by
          intro hc; subst hc; exact h1 rfl
        have hn : a.toNat ≠ ('.' : Char).toNat := fun hc => ha (Char.ext (by
          exact UInt32.ext (by simpa [Char.toNat] using hc)))
        rw [strncmp, if_neg ha]
        omega
      | a :: b :: rest, hnul, _ =>
        show strncmp (a :: b :: rest) ['.'] 2 ≠ 0
        have hb : b ≠ '\x00' := by
          intro hc; subst hc; exact hnul (by simp)
        by_cases ha : a = '.'
        · rw [strncmp, if_pos ha, strncmp]
          exact char_toNat_ne_zero b hb
        · have hn : a.toNat ≠ ('.' : Char).toNat := fun hc => ha (Char.ext (by
            exact UInt32.ext (by simpa [Char.toNat] using hc)))
          rw [strncmp, if_neg ha]
          omega
    have hs2 : strncmp name "..".toList 3 ≠ 0 := by
      match name, hnul, h2 with
      | [], _, _ => simp [strncmp]
      | [a], _, _ =>
        show strncmp [a] ['.', '.'] 3 ≠ 0
        by_cases ha : a = '.'
        · rw [strncmp, if_pos ha, strncmp]
          decide
        · have hn : a.toNat ≠ ('.' : Char).toNat := fun hc => ha (Char.ext (by
            exact UInt32.ext (by simpa [Char.toNat] using hc)))
          rw [strncmp, if_neg ha]
          omega
      | [a, b], _, h2 =>
        show strncmp [a, b] ['.', '.'] 3 ≠ 0
        by_cases ha : a = '.'
        · have hb : b ≠ '.' := by
            intro hc; subst hc; subst ha; exact h2 rfl
          have hn : b.toNat ≠ ('.' : Char).toNat := fun hc => hb (Char.ext (by
            exact UInt32.ext (by simpa [Char.toNat] using hc)))
          rw [strncmp, if_pos ha, strncmp, if_neg hb]
          omega
        · have hn : a.toNat ≠ ('.' : Char).toNat := fun hc => ha (Char.ext (by
            exact UInt32.ext (by simpa [Char.toNat] using hc)))
          rw [strncmp, if_neg ha]
          omega
      | a :: b :: c :: rest, hnul, _ =>
        show strncmp (a :: b :: c :: rest) ['.', '.'] 3 ≠ 0
        have hc0 : c ≠ '\x00' := by
          intro hc; subst hc; exact hnul (by simp)
        by_cases ha : a = '.'
        · by_cases hb : b = '.'
          · rw [strncmp, if_pos ha, strncmp, if_pos hb, strncmp]
            exact char_toNat_ne_zero c hc0
          · have hn : b.toNat ≠ ('.' : Char).toNat := fun hc => hb (Char.ext (by
              exact UInt32.ext (by simpa [Char.toNat] using hc)))
            rw [strncmp, if_pos ha, strncmp, if_neg hb]
            omega
        · have hn : a.toNat ≠ ('.' : Char).toNat := fun hc => ha (Char.ext (by
            exact UInt32.ext (by simpa [Char.toNat] using hc)))
          rw [strncmp, if_neg ha]
          omega
    unfold filter_show_hidden at h
    rw [if_neg (fun hc => hc.elim hs1 hs2)] at h
    norm_num at h
  · rintro (h | h)
    · subst h; decide
    · subst h; decide

/-- C15: for every entry name (a C string, so without the terminator inside
it), `filter_hidden` returns 0 exactly when the first character is '.', and 1
otherwise; `filter_show_hidden` returns 0 exactly when the whole name is "."
or "..", and 1 otherwise; the names "...", ".a" and "..a" are accepted by
`filter_show_hidden` and rejected by `filter_hidden`; and every name
`filter_hidden` accepts is accepted by `filter_show_hidden`. -/
theorem filters_reject_exactly (name : CStr) (hnul : '\x00' ∉ name) :
    (filter_hidden name = 0 ↔ name.head? = some '.') ∧
    (filter_hidden name ≠ 0 → filter_hidden name = 1) ∧
    (filter_show_hidden name = 0 ↔ name = ".".toList ∨ name = "..".toList) ∧
    (filter_show_hidden name ≠ 0 → filter_show_hidden name = 1) ∧
    (filter_show_hidden "...".toList = 1 ∧ filter_show_hidden ".a".toList = 1
      ∧ filter_show_hidden "..a".toList = 1) ∧
    (filter_hidden "...".toList = 0 ∧ filter_hidden ".a".toList = 0
      ∧ filter_hidden "..a".toList = 0) ∧
    (filter_hidden name ≠ 0 → filter_show_hidden name ≠ 0) := by
  refine ⟨?_, ?_, filter_show_hidden_eq_zero name hnul, ?_, by decide, by decide,
    filter_hidden_le_show name⟩
  · unfold filter_hidden
    by_cases h : name.head? = some '.'
    · simp [h]
    · simp [h]
  · unfold filter_hidden
    by_cases h : name.head? = some '.'
    · simp [h]
    · simp [h]
  · unfold filter_show_hidden
    intro h
    by_cases hc : strncmp name ".".toList 2 = 0 ∨ strncmp name "..".toList 3 = 0
    · rw [if_pos hc] at h; exact absurd rfl h
    · rw [if_neg hc]

/-- C15 at the name ".git": rejected by `filter_hidden`, accepted by
`filter_show_hidden`. -/
theorem filters_reject_exactly_witness :
    '\x00' ∉ ".git".toList ∧
    ((filter_hidden ".git".toList = 0 ↔ (".git".toList).head? = some '.') ∧
    (filter_hidden ".git".toList ≠ 0 → filter_hidden ".git".toList = 1) ∧
    (filter_show_hidden ".git".toList = 0
      ↔ ".git".toList = ".".toList ∨ ".git".toList = "..".toList) ∧
    (filter_show_hidden ".git".toList ≠ 0 → filter_show_hidden ".git".toList = 1) ∧
    (filter_show_hidden "...".toList = 1 ∧ filter_show_hidden ".a".toList = 1
      ∧ filter_show_hidden "..a".toList = 1) ∧
    (filter_hidden "...".toList = 0 ∧ filter_hidden ".a".toList = 0
      ∧ filter_hidden "..a".toList = 0) ∧
    (filter_hidden ".git".toList ≠ 0 → filter_show_hidden ".git".toList ≠ 0)) :=
  ⟨by decide, filters_reject_exactly ".git".toList (by decide)⟩

/-! ### A subdirectory whose listing fails -/

theorem capacityStep_refl (i c : Nat) (h : i < c) : CapacityStep i c i c :=
  ⟨le_refl i, h, ⟨0, by simp⟩, Or.inl rfl⟩

theorem capacityStep_trans (i c i1 c1 i2 c2 : Nat) (h1 : CapacityStep i c i1 c1)
    (h2 : CapacityStep i1 c1 i2 c2) : CapacityStep i c i2 c2 := by
  obtain ⟨a1, _, ⟨j1, e1⟩, d1⟩ := h1
  obtain ⟨a2, b2, ⟨j2, e2⟩, d2⟩ := h2
  refine ⟨le_trans a1 a2, b2, ⟨j1 + j2, by rw [e2, e1, pow_add, Nat.mul_assoc]⟩, ?_⟩
  rcases d2 with d2 | d2
  · rcases d1 with d1 | d1
    · exact Or.inl (d2.trans d1)
    · exact Or.inr (by omega)
  · exact Or.inr d2

theorem capacityStep_succ (i c i1 c1 : Nat) (h : CapacityStep (i + 1) c i1 c1) :
    CapacityStep i c i1 c1 := by
  obtain ⟨a, b, e, d⟩ := h
  exact ⟨by omega, b, e, d⟩

theorem realloc_capacity {W : Type} (junk : Int) (st : CState W)
    (hidx : st.dir_index ≤ st.array_size) (hcap : 0 < st.array_size) :
    ∃ s1 : CState W,
      (if st.dir_index ≥ st.array_size then
          ({ st with array_size := st.array_size * 2,
                     sizes := realloc st.sizes (st.array_size * 2) junk } : CState W)
        else st) = s1 ∧
      s1.dir_index = st.dir_index ∧
      CapacityStep st.dir_index st.array_size s1.dir_index s1.array_size := by
  by_cases h : st.dir_index ≥ st.array_size
  · refine ⟨_, rfl, ?_, ?_⟩
    · rw [if_pos h]
    · rw [if_pos h]
      exact ⟨le_refl _, by simp only []; omega, ⟨1, by simp⟩, Or.inr (by simp only []; omega)⟩
  · refine ⟨_, rfl, ?_, ?_⟩
    · rw [if_neg h]
    · rw [if_neg h]
      exact capacityStep_refl _ _ (by omega)

theorem compute_dir_size_loop_capacity {W : Type} (sys : Sys W) (ff : FilterFn)
    (recurse : CStr → CState W → Bool → Option (CState W)) (cur : Nat)
    (hdet : ∀ (p : CStr) (x : Int) (cap : Nat) (cwd : W) (sub : CState W), 0 < cap →
      recurse p { sizes := [x], dir_index := 0, array_size := cap, cwd := cwd } true = some sub →
      sub.array_size = cap)
    (hrec : ∀ (p : CStr) (s s' : CState W), 0 < s.array_size → s.dir_index ≤ s.array_size →
      recurse p s false = some s' →
      CapacityStep s.dir_index s.array_size s'.dir_index s'.array_size) :
    ∀ (entries : List Dirent) (st st' : CState W), st.dir_index < st.array_size →
      compute_dir_size_loop sys ff recurse cur false entries st = some st' →
      CapacityStep st.dir_index st.array_size st'.dir_index st'.array_size := by
  intro entries
  induction entries with
  | nil =>
    intro st st' hlt h
    simp only [compute_dir_size_loop, Option.some.injEq] at h
    rw [← h]
    exact capacityStep_refl _ _ hlt
  | cons e rest ih =>
    intro st st' hlt h
    rw [compute_dir_size_loop] at h
    split at h
    · split at h
      · split at h
        · cases h
        · rename_i sub hsub
          have hsubcap := hdet _ _ _ _ _ (by omega) hsub
          split at h
          · cases h
          · split at h
            · cases h
            · have h1 := ih _ _ (by simp only []; rw [hsubcap]; exact hlt) h
              simp only [] at h1
              rw [hsubcap] at h1
              exact h1
      · simp only [] at h
        split at h
        · cases h
        · rename_i st1 hst1
          have h0 := hrec _ _ _ (by simp only []; omega) (by simp only []; omega) hst1
          simp only [] at h0
          split at h
          · cases h
          · split at h
            · cases h
            · have h1 := ih _ _ (by simp only []; exact h0.2.1) h
              simp only [] at h1
              exact capacityStep_succ _ _ _ _ (capacityStep_trans _ _ _ _ _ _ h0 h1)
    · split at h
      · split at h
        · exact ih _ _ hlt h
        · split at h
          · cases h
          · have h1 := ih _ _ (by simp only []; exact hlt) h
            exact h1
      · exact ih _ _ hlt h

theorem compute_dir_size_r_capacity {W : Type} (sys : Sys W) (ff : FilterFn) :
    ∀ (fuel : Nat) (path : CStr) (st st' : CState W), 0 < st.array_size →
      st.dir_index ≤ st.array_size →
      compute_dir_size_r sys ff fuel path st false = some st' →
      CapacityStep st.dir_index st.array_size st'.dir_index st'.array_size := by
  intro fuel
  induction fuel with
  | zero => intro path st st' _ _ h; simp [compute_dir_size_r] at h
  | succ fuel ih =>
    intro path st st' hcap hidx h
    obtain ⟨s1, hs1, hi1, hstep⟩ := realloc_capacity sys.junk st hidx hcap
    rw [compute_dir_size_r] at h
    simp only [hs1] at h
    split at h
    · cases h
    · split at h
      · simp only [Option.some.injEq] at h
        rw [← h]
        exact hstep
      · simp only [Option.some.injEq] at h
        rw [← h]
        exact hstep
      · split at h
        · cases h
        · rename_i st4 hloop
          split at h
          · cases h
          · simp only [Option.some.injEq] at h
            rw [← h]
            have hl := compute_dir_size_loop_capacity sys ff _ st.dir_index
              (fun p x cap cwd sub hc hsub => by
                have := compute_dir_size_r_detached sys ff fuel p x cap cwd hc
                rw [this] at hsub
                cases hd : dir_totals sys ff fuel cwd p true with
                | none => rw [hd] at hsub; cases hsub
                | some r =>
                  rw [hd] at hsub
                  simp only [Option.map_some', Option.some.injEq] at hsub
                  rw [← hsub])
              (fun p s s' hc hi hs => ih p s s' hc hi hs)
              _ _ _ (by simp only []; exact hstep.2.1) hloop
            simp only [] at hl
            exact capacityStep_trans _ _ _ _ _ _ hstep hl

/-- C16: every access of `compute_dir_size_r` to its buffer is inside it. The
embedding returns `none` at an access outside the buffer; the statement is
that `none` comes up only when `dir_totals`, the same walk without any buffer,
returns `none`, which it does only when the fuel is used up or when the walk
ends in `dirfd(NULL)` after a failed `opendir(".")`, never for an access to a
buffer.

Stored runs, started with a buffer of `array_size` elements and the index at
most `array_size` (as `compute_dir_size` and every recursive call do): the
run leaves a buffer of exactly `array_size` elements with the index below it,
and the capacity is the old one doubled some number of times, doubled only
when the index had reached it. For the run `compute_dir_size` starts this is
a capacity `10 * 2^j` that is 10 or at most twice the last index; it stays
below `2^31` while fewer than `2^30` slots are in use.

Detached runs (`dont_store = 1`, one-element buffer, index 0, the shared
capacity `cap`): the run leaves one element, the index 0 and the capacity
`cap`.

On a tree in which every directory that can be listed can be entered the run
`compute_dir_size` starts returns, given fuel for the depth of the tree and,
when the directory has entries, a working directory that `opendir(".")` can
open. -/
theorem compute_dir_size_r_within_buffer {W : Type} (sys : Sys W) (ff : FilterFn)
    (fuel : Nat) :
    (∀ (path : CStr) (st : CState W), st.sizes.length = st.array_size →
      st.dir_index ≤ st.array_size → 0 < st.array_size →
      (compute_dir_size_r sys ff fuel path st false = none →
        dir_totals sys ff fuel st.cwd path false = none) ∧
      ∀ st', compute_dir_size_r sys ff fuel path st false = some st' →
        st'.sizes.length = st'.array_size ∧
        CapacityStep st.dir_index st.array_size st'.dir_index st'.array_size) ∧
    (∀ (cwd : W) (path : CStr),
      (compute_dir_size sys ff fuel cwd path = none →
        dir_totals sys ff fuel cwd path false = none) ∧
      ∀ c, compute_dir_size sys ff fuel cwd path = some c →
        c.sizes.length = c.array_size ∧ c.dir_index < c.array_size ∧
        (∃ j : Nat, c.array_size = 10 * 2 ^ j) ∧
        (c.array_size = 10 ∨ c.array_size ≤ 2 * c.dir_index) ∧
        (c.dir_index < 1073741824 → c.array_size < 2147483648)) ∧
    (∀ (path : CStr) (x : Int) (cap : Nat) (cwd : W), 0 < cap →
      (compute_dir_size_r sys ff fuel path
          { sizes := [x], dir_index := 0, array_size := cap, cwd := cwd } true = none →
        dir_totals sys ff fuel cwd path true = none) ∧
      ∀ sub, compute_dir_size_r sys ff fuel path
          { sizes := [x], dir_index := 0, array_size := cap, cwd := cwd } true = some sub →
        sub.sizes.length = 1 ∧ sub.dir_index = 0 ∧ sub.array_size = cap) ∧
    (∀ (cwd : Node) (path : CStr) (r x : Bool) (es : List (CStr × Node)),
      cwd.resolve path = some (.dir r x es) → (Node.dir r x es).searchable = true →
      (Node.dir r x es).depth ≤ fuel →
      (r = true → es ≠ [] → opendir_dot treeSys cwd = some cwd) →
      ∃ c, compute_dir_size treeSys ff fuel cwd path = some c) := by
  have hstored : ∀ (path : CStr) (st : CState W), st.sizes.length = st.array_size →
      st.dir_index ≤ st.array_size → 0 < st.array_size →
      (compute_dir_size_r sys ff fuel path st false = none →
        dir_totals sys ff fuel st.cwd path false = none) ∧
      ∀ st', compute_dir_size_r sys ff fuel path st false = some st' →
        st'.sizes.length = st'.array_size ∧
        CapacityStep st.dir_index st.array_size st'.dir_index st'.array_size := by
    intro path st hlen hidx hcap
    obtain ⟨-, hsome⟩ := compute_dir_size_r_stored sys ff fuel path st hlen hidx hcap
    constructor
    · intro hnone
      cases hdt : dir_totals sys ff fuel st.cwd path false with
      | none => rfl
      | some r =>
        obtain ⟨st', _, hrun, -⟩ := hsome r hdt
        rw [hnone] at hrun
        cases hrun
    · intro st' hrun
      refine ⟨?_, compute_dir_size_r_capacity sys ff fuel path st st' hcap hidx hrun⟩
      cases hdt : dir_totals sys ff fuel st.cwd path false with
      | none =>
        have := (compute_dir_size_r_stored sys ff fuel path st hlen hidx hcap).1 hdt
        rw [hrun] at this
        cases this
      | some r =>
        obtain ⟨st2, _, hrun2, -, -, hlen2, -⟩ := hsome r hdt
        rw [hrun] at hrun2
        simp only [Option.some.injEq] at hrun2
        rw [hrun2]
        exact hlen2
  refine ⟨hstored, ?_, ?_, ?_⟩
  · intro cwd path
    obtain ⟨h1, h2⟩ := hstored path
      { sizes := List.replicate 10 0, dir_index := 0, array_size := 10, cwd := cwd }
      (by simp) (by simp) (by simp)
    refine ⟨h1, fun c hc => ?_⟩
    obtain ⟨hlen, -, hlt, hj, hmin⟩ := h2 c hc
    simp only [] at hj hmin
    exact ⟨hlen, hlt, hj, hmin, fun hi => by omega⟩
  · intro path x cap cwd hcap
    have hd := compute_dir_size_r_detached sys ff fuel path x cap cwd hcap
    constructor
    · intro hnone
      rw [hnone] at hd
      cases hdt : dir_totals sys ff fuel cwd path true with
      | none => rfl
      | some r => rw [hdt] at hd; cases hd
    · intro sub hsub
      rw [hsub] at hd
      cases hdt : dir_totals sys ff fuel cwd path true with
      | none => rw [hdt] at hd; cases hd
      | some r =>
        rw [hdt] at hd
        simp only [Option.map_some', Option.some.injEq] at hd
        rw [hd]
        exact ⟨rfl, rfl, rfl⟩
  · intro cwd path r x es hres hwf hfuel hopen
    have hdt := dir_totals_tree ff fuel cwd path r x es hres hwf hfuel hopen
    obtain ⟨-, hsome⟩ := compute_dir_size_r_stored treeSys ff fuel path
      { sizes := List.replicate 10 0, dir_index := 0, array_size := 10, cwd := cwd }
      (by simp) (by simp) (by simp)
    obtain ⟨c, _, hc, -⟩ := hsome _ hdt
    exact ⟨c, hc⟩

set_option maxRecDepth 100000 in
/-- C16 on `wide_tree`: the twelfth slot is reached with the capacity doubled
to 20. -/
theorem compute_dir_size_r_within_buffer_witness :
    compute_dir_size treeSys FilterFn.filter_show_hidden 3 wide_tree "root".toList
      = some wide_sizes ∧
    (wide_sizes.sizes.length = wide_sizes.array_size ∧
      wide_sizes.dir_index < wide_sizes.array_size ∧
      (∃ j : Nat, wide_sizes.array_size = 10 * 2 ^ j) ∧
      (wide_sizes.array_size = 10 ∨ wide_sizes.array_size ≤ 2 * wide_sizes.dir_index) ∧
      (wide_sizes.dir_index < 1073741824 → wide_sizes.array_size < 2147483648)) :=
  ⟨rfl, ((compute_dir_size_r_within_buffer treeSys FilterFn.filter_show_hidden 3).2.1
    wide_tree "root".toList).2 wide_sizes rfl⟩

/-! ### The arguments of `main` -/

theorem main_option_loop_ok : ∀ (t : List Char) (s : MainState),
    (∀ c ∈ t, c = 'a' ∨ c = 'h') →
    ∃ s', main_option_loop t s = .ok s' ∧
      s'.filter_function
        = (if 'a' ∈ t then FilterFn.filter_show_hidden else s.filter_function) ∧
      s'.byte_formatter
        = (if 'h' ∈ t then ByteFormatter.byte_format_human else s.byte_formatter) ∧
      s'.dir_arg_index = s.dir_arg_index := by
  intro t
  induction t with
  | nil => intro s _; exact ⟨s, rfl, by simp, by simp, rfl⟩
  | cons c t ih =>
    intro s h
    have ht : ∀ c ∈ t, c = 'a' ∨ c = 'h' := fun c hc => h c (List.mem_cons_of_mem _ hc)
    rw [main_option_loop]
    rcases h c (List.mem_cons_self _ _) with hc | hc
    · subst hc
      obtain ⟨s', h1, h2, h3, h4⟩ := ih { s with filter_function := FilterFn.filter_show_hidden } ht
      refine ⟨s', by rw [if_pos rfl]; exact h1, ?_, ?_, h4⟩
      · rw [h2]; simp
      · rw [h3]
        have : ('h' ∈ 'a' :: t) ↔ 'h' ∈ t := by simp
        simp only [this]
    · subst hc
      obtain ⟨s', h1, h2, h3, h4⟩ := ih { s with byte_formatter := ByteFormatter.byte_format_human } ht
      refine ⟨s', by rw [if_neg (by decide), if_pos rfl]; exact h1, ?_, ?_, h4⟩
      · rw [h2]
        have : ('a' ∈ 'h' :: t) ↔ 'a' ∈ t := by simp
        simp only [this]
      · rw [h3]; simp

theorem strncmp_help_ne (a : CStr)
    (h : a.head? = some '-' → a.tail ≠ [] ∧ ∀ c ∈ a.tail, c = 'a' ∨ c = 'h') :
    strncmp a "--help".toList 7 ≠ 0 := by
  cases a with
  | nil => show strncmp [] ('-' :: "-help".toList) 7 ≠ 0; rw [strncmp]; decide
  | cons c t =>
    show strncmp (c :: t) ('-' :: "-help".toList) 7 ≠ 0
    by_cases hc : c = '-'
    · subst hc
      obtain ⟨hne, hall⟩ := h rfl
      rw [strncmp, if_pos rfl]
      cases t with
      | nil => exact absurd rfl hne
      | cons d t' =>
        show strncmp (d :: t') ('-' :: "help".toList) 6 ≠ 0
        rcases hall d (List.mem_cons_self _ _) with hd | hd
        · subst hd; rw [strncmp, if_neg (by decide)]; decide
        · subst hd; rw [strncmp, if_neg (by decide)]; decide
    · have hn : c.toNat ≠ ('-' : Char).toNat := fun he => hc (Char.ext (by
        exact UInt32.ext (by simpa [Char.toNat] using he)))
      rw [strncmp, if_neg hc]
      omega

theorem main_help_not_requested : ∀ (args : List CStr),
    (∀ a ∈ args, a.head? = some '-' → a.tail ≠ [] ∧ ∀ c ∈ a.tail, c = 'a' ∨ c = 'h') →
    main_help_requested args = false := by
  intro args
  induction args with
  | nil => intro _; rfl
  | cons a rest ih =>
    intro h
    rw [main_help_requested, if_neg (strncmp_help_ne a (h a (List.mem_cons_self _ _)))]
    exact ih fun b hb => h b (List.mem_cons_of_mem _ hb)

theorem mem_of_option (a : CStr) (ch : Char) (hd : a.head? = some '-') (hch : ch ≠ '-') :
    ch ∈ a ↔ ch ∈ a.tail := by
  cases a with
  | nil => simp
  | cons c t =>
    simp only [List.head?_cons, Option.some.injEq] at hd
    subst hd
    simp [hch]

theorem main_args_loop_ok : ∀ (args pre : List CStr) (i : Nat) (s : MainState),
    pre.length = i → 1 ≤ i →
    (∀ a ∈ args, a.head? = some '-' → a.tail ≠ [] ∧ ∀ c ∈ a.tail, c = 'a' ∨ c = 'h') →
    (args.filter fun a => decide (a.head? ≠ some '-')).length
      + (if s.dir_arg_index ≠ 0 then 1 else 0) ≤ 1 →
    ∃ s', main_args_loop i args s = .ok s' ∧
      s'.filter_function
        = (if ∃ a ∈ args, a.head? = some '-' ∧ 'a' ∈ a then FilterFn.filter_show_hidden
            else s.filter_function) ∧
      s'.byte_formatter
        = (if ∃ a ∈ args, a.head? = some '-' ∧ 'h' ∈ a then ByteFormatter.byte_format_human
            else s.byte_formatter) ∧
      (if s'.dir_arg_index ≠ 0 then (pre ++ args)[s'.dir_arg_index]? else some ".".toList)
        = (match args.find? fun a => decide (a.head? ≠ some '-') with
           | some p => some p
           | none =>
             if s.dir_arg_index ≠ 0 then (pre ++ args)[s.dir_arg_index]?
             else some ".".toList) := by
  intro args
  induction args with
  | nil =>
    intro pre i s _ _ _ _
    exact ⟨s, rfl, by simp, by simp, by simp⟩
  | cons arg rest ih =>
    intro pre i s hpre hi hopt hone
    have hrest : ∀ a ∈ rest, a.head? = some '-' →
        a.tail ≠ [] ∧ ∀ c ∈ a.tail, c = 'a' ∨ c = 'h' :=
      fun a ha => hopt a (List.mem_cons_of_mem _ ha)
    rw [main_args_loop]
    by_cases hd : arg.head? = some '-'
    · obtain ⟨hne, hall⟩ := hopt arg (List.mem_cons_self _ _) hd
      rw [if_pos hd, if_neg hne]
      obtain ⟨s1, h1, h2, h3, h4⟩ := main_option_loop_ok arg.tail s hall
      rw [h1]
      simp only []
      have hfil : (List.filter (fun a => decide (a.head? ≠ some '-')) (arg :: rest))
          = List.filter (fun a => decide (a.head? ≠ some '-')) rest := by
        rw [List.filter_cons]
        simp [hd]
      have hfind : (List.find? (fun a => decide (a.head? ≠ some '-')) (arg :: rest))
          = List.find? (fun a => decide (a.head? ≠ some '-')) rest := by
        rw [List.find?_cons]
        simp [hd]
      rw [hfil] at hone
      obtain ⟨s', g1, g2, g3, g4⟩ := ih (pre ++ [arg]) (i + 1) s1
        (by rw [List.length_append, hpre]; rfl) (by omega) hrest (by rw [h4]; exact hone)
      have happ : pre ++ [arg] ++ rest = pre ++ arg :: rest := by simp
      rw [happ, h4] at g4
      refine ⟨s', g1, ?_, ?_, ?_⟩
      · rw [g2, h2]
        by_cases ha : 'a' ∈ arg.tail
        · have hex : ∃ a ∈ arg :: rest, a.head? = some '-' ∧ 'a' ∈ a :=
            ⟨arg, List.mem_cons_self _ _, hd, (mem_of_option arg 'a' hd (by decide)).2 ha⟩
          rw [if_pos ha, if_pos hex]
          split <;> rfl
        · rw [if_neg ha]
          by_cases hex : ∃ a ∈ rest, a.head? = some '-' ∧ 'a' ∈ a
          · obtain ⟨b, hb, hb1, hb2⟩ := hex
            rw [if_pos ⟨b, hb, hb1, hb2⟩, if_pos ⟨b, List.mem_cons_of_mem _ hb, hb1, hb2⟩]
          · have hex' : ¬ ∃ a ∈ arg :: rest, a.head? = some '-' ∧ 'a' ∈ a := by
              rintro ⟨b, hb, hb1, hb2⟩
              rcases List.mem_cons.1 hb with hb | hb
              · subst hb
                exact ha ((mem_of_option b 'a' hd (by decide)).1 hb2)
              · exact hex ⟨b, hb, hb1, hb2⟩
            rw [if_neg hex, if_neg hex']
      · rw [g3, h3]
        by_cases ha : 'h' ∈ arg.tail
        · have hex : ∃ a ∈ arg :: rest, a.head? = some '-' ∧ 'h' ∈ a :=
            ⟨arg, List.mem_cons_self _ _, hd, (mem_of_option arg 'h' hd (by decide)).2 ha⟩
          rw [if_pos ha, if_pos hex]
          split <;> rfl
        · rw [if_neg ha]
          by_cases hex : ∃ a ∈ rest, a.head? = some '-' ∧ 'h' ∈ a
          · obtain ⟨b, hb, hb1, hb2⟩ := hex
            rw [if_pos ⟨b, hb, hb1, hb2⟩, if_pos ⟨b, List.mem_cons_of_mem _ hb, hb1, hb2⟩]
          · have hex' : ¬ ∃ a ∈ arg :: rest, a.head? = some '-' ∧ 'h' ∈ a := by
              rintro ⟨b, hb, hb1, hb2⟩
              rcases List.mem_cons.1 hb with hb | hb
              · subst hb
                exact ha ((mem_of_option b 'h' hd (by decide)).1 hb2)
              · exact hex ⟨b, hb, hb1, hb2⟩
            rw [if_neg hex, if_neg hex']
      · rw [g4, hfind]
    · rw [if_neg hd]
      have hfil : (List.filter (fun a => decide (a.head? ≠ some '-')) (arg :: rest))
          = arg :: List.filter (fun a => decide (a.head? ≠ some '-')) rest := by
        rw [List.filter_cons]
        simp [hd]
      rw [hfil, List.length_cons] at hone
      have hs0 : s.dir_arg_index = 0 := by
        by_contra hc
        rw [if_pos hc] at hone
        omega
      have hnone : (List.filter (fun a => decide (a.head? ≠ some '-')) rest).length = 0 := by
        omega
      rw [if_neg (by simpa using hs0)]
      obtain ⟨s', g1, g2, g3, g4⟩ := ih (pre ++ [arg]) (i + 1)
        { s with dir_arg_index := i }
        (by rw [List.length_append, hpre]; rfl) (by omega) hrest
        (by simp only []; rw [hnone, if_pos (by omega)])
      have happ : pre ++ [arg] ++ rest = pre ++ arg :: rest := by simp
      rw [happ] at g4
      have hfindr : List.find? (fun a => decide (a.head? ≠ some '-')) rest = none := by
        rw [List.find?_eq_none]
        intro b hb hc
        have : b ∈ List.filter (fun a => decide (a.head? ≠ some '-')) rest :=
          List.mem_filter.2 ⟨hb, hc⟩
        rw [List.length_eq_zero.1 hnone] at this
        cases this
      have hfind : (List.find? (fun a => decide (a.head? ≠ some '-')) (arg :: rest))
          = some arg := by
        rw [List.find?_cons]
        simp [hd]
      have hexa : ∀ ch : Char, (∃ a ∈ arg :: rest, a.head? = some '-' ∧ ch ∈ a)
          ↔ ∃ a ∈ rest, a.head? = some '-' ∧ ch ∈ a := by
        intro ch
        constructor
        · rintro ⟨b, hb, hb1, hb2⟩
          rcases List.mem_cons.1 hb with hb | hb
          · subst hb; exact absurd hb1 hd
          · exact ⟨b, hb, hb1, hb2⟩
        · rintro ⟨b, hb, hb1, hb2⟩
          exact ⟨b, List.mem_cons_of_mem _ hb, hb1, hb2⟩
      refine ⟨s', g1, ?_, ?_, ?_⟩
      · rw [g2]; simp only [hexa]
      · rw [g3]; simp only [hexa]
      · rw [g4, hfindr, hfind]
        simp only []
        rw [if_pos (by omega : i ≠ 0)]
        rw [List.getElem?_append_right (by omega)]
        simp [hpre]

theorem main_traverse_status {W : Type} (sys : Sys W) (fuel : Nat) (cwd : W) (ff : FilterFn)
    (bf : ByteFormatter) (dir_path : CStr) (e : Outcome)
    (h : main_traverse sys fuel cwd ff bf dir_path = some e) :
    e.status = 0 ∨ e.status = 3 := by
  unfold main_traverse at h
  split at h
  · simp only [Option.some.injEq] at h
    rw [← h]
    exact Or.inr rfl
  · split at h
    · cases h
    · simp only [Option.some.injEq] at h
      rw [← h]
      exact Or.inl rfl

theorem selected_root_eq (args : List CStr) :
    selected_root args
      = ((args.filter fun a => decide (a.head? ≠ some '-')).head?).getD ".".toList := by
  unfold selected_root
  induction args with
  | nil => rfl
  | cons a rest ih =>
    rw [List.find?_cons, List.filter_cons]
    by_cases h : decide (a.head? ≠ some '-') = true
    · rw [h]
      simp
    · have hf : decide (a.head? ≠ some '-') = false := by simpa using h
      rw [hf]
      simp

/-- C12: for an argument list in which every argument that starts with '-'
has at least one character after it and only the letters a and h there, and
in which at most one argument does not start with '-' (such a list holds no
"--help"): the first loop of `main` finds no request for help; the second
loop ends without a usage error, with `filter_function` set to
`filter_show_hidden` exactly when some option argument contains 'a',
`byte_formatter` set to `byte_format_human` exactly when some option argument
contains 'h', and `dir_arg_index` on the argument that does not start with '-'
(0, which stands for ".", when there is none); `main` then runs the traversal
with this selection, and its exit status is 0 or 3, not the status 1 or 2 of a
usage error. Each of the two selections depends on its own letter only, and
two argument lists with the same letters among their options and the same
argument without '-' give the same run, whatever the order, the grouping and
the repetition of the letters. -/
theorem main_selects_options {W : Type} (sys : Sys W) (fuel : Nat) (cwd : W) (prog : CStr)
    (args : List CStr)
    (hopt : ∀ a ∈ args, a.head? = some '-' →
      a.tail ≠ [] ∧ ∀ c ∈ a.tail, c = 'a' ∨ c = 'h')
    (hone : (args.filter fun a => decide (a.head? ≠ some '-')).length ≤ 1) :
    main_help_requested args = false ∧
    (∃ s, main_args_loop 1 args
        { filter_function := FilterFn.filter_hidden,
          byte_formatter := ByteFormatter.byte_format_identity, dir_arg_index := 0 } = .ok s ∧
      s.filter_function = selected_filter args ∧
      s.byte_formatter = selected_formatter args ∧
      (if s.dir_arg_index ≠ 0 then (prog :: args)[s.dir_arg_index]? else some ".".toList)
        = some (selected_root args)) ∧
    main sys fuel cwd (prog :: args)
      = main_traverse sys fuel cwd (selected_filter args) (selected_formatter args)
          (selected_root args) ∧
    (∀ e, main sys fuel cwd (prog :: args) = some e → e.status = 0 ∨ e.status = 3) ∧
    (∀ (prog2 : CStr) (args2 : List CStr),
      (∀ a ∈ args2, a.head? = some '-' → a.tail ≠ [] ∧ ∀ c ∈ a.tail, c = 'a' ∨ c = 'h') →
      (args2.filter fun a => decide (a.head? ≠ some '-'))
        = (args.filter fun a => decide (a.head? ≠ some '-')) →
      ((∃ a ∈ args2, a.head? = some '-' ∧ 'a' ∈ a)
        ↔ ∃ a ∈ args, a.head? = some '-' ∧ 'a' ∈ a) →
      ((∃ a ∈ args2, a.head? = some '-' ∧ 'h' ∈ a)
        ↔ ∃ a ∈ args, a.head? = some '-' ∧ 'h' ∈ a) →
      main sys fuel cwd (prog2 :: args2) = main sys fuel cwd (prog :: args)) := by
  have key : ∀ (prog : CStr) (args : List CStr),
      (∀ a ∈ args, a.head? = some '-' → a.tail ≠ [] ∧ ∀ c ∈ a.tail, c = 'a' ∨ c = 'h') →
      (args.filter fun a => decide (a.head? ≠ some '-')).length ≤ 1 →
      (∃ s, main_args_loop 1 args
          { filter_function := FilterFn.filter_hidden,
            byte_formatter := ByteFormatter.byte_format_identity, dir_arg_index := 0 }
            = .ok s ∧
        s.filter_function = selected_filter args ∧
        s.byte_formatter = selected_formatter args ∧
        (if s.dir_arg_index ≠ 0 then (prog :: args)[s.dir_arg_index]? else some ".".toList)
          = some (selected_root args)) ∧
      main sys fuel cwd (prog :: args)
        = main_traverse sys fuel cwd (selected_filter args) (selected_formatter args)
            (selected_root args) := by
    intro prog args hopt hone
    obtain ⟨s, h1, h2, h3, h4⟩ := main_args_loop_ok args [prog] 1
      { filter_function := FilterFn.filter_hidden,
        byte_formatter := ByteFormatter.byte_format_identity, dir_arg_index := 0 }
      rfl (le_refl 1) hopt (by simpa using hone)
    have h4' : (if s.dir_arg_index ≠ 0 then (prog :: args)[s.dir_arg_index]?
        else some ".".toList) = some (selected_root args) := by
      have happ : [prog] ++ args = prog :: args := rfl
      rw [happ] at h4
      rw [h4]
      unfold selected_root
      cases List.find? (fun a => decide (a.head? ≠ some '-')) args with
      | none => simp
      | some p => simp
    refine ⟨⟨s, h1, h2, h3, h4'⟩, ?_⟩
    unfold main
    rw [List.drop_one, List.tail_cons, main_help_not_requested args hopt, h1]
    simp only [Bool.false_eq_true, if_false]
    rw [h4']
    simp only []
    rw [h2, h3]
    rfl
  obtain ⟨hloop, hmain⟩ := key prog args hopt hone
  refine ⟨main_help_not_requested args hopt, hloop, hmain, ?_, ?_⟩
  · intro e he
    rw [hmain] at he
    exact main_traverse_status sys fuel cwd _ _ _ e he
  · intro prog2 args2 hopt2 hnon ha hh
    obtain ⟨-, hmain2⟩ := key prog2 args2 hopt2 (by rw [hnon]; exact hone)
    rw [hmain, hmain2]
    have hf : selected_filter args2 = selected_filter args := by
      unfold selected_filter
      simp only [ha]
    have hb : selected_formatter args2 = selected_formatter args := by
      unfold selected_formatter
      simp only [hh]
    have hr : selected_root args2 = selected_root args := by
      rw [selected_root_eq, selected_root_eq, hnon]
    rw [hf, hb, hr]

set_option maxRecDepth 100000 in
/-- C12 at `gls -h root` on `sample_tree`: the run lists `root` with hidden
entries left out and sizes in the human format; `gls root -hh -h` gives the
same run. -/
theorem main_selects_options_witness :
    (∀ a ∈ ["-h".toList, "root".toList], a.head? = some '-' →
      a.tail ≠ [] ∧ ∀ c ∈ a.tail, c = 'a' ∨ c = 'h') ∧
    (List.filter (fun a => decide (a.head? ≠ some '-'))
      ["-h".toList, "root".toList]).length ≤ 1 ∧
    selected_filter ["-h".toList, "root".toList] = FilterFn.filter_hidden ∧
    selected_formatter ["-h".toList, "root".toList] = ByteFormatter.byte_format_human ∧
    selected_root ["-h".toList, "root".toList] = "root".toList ∧
    main treeSys 5 sample_tree ["gls".toList, "-h".toList, "root".toList]
      = some { status := 0, out := sample_report.out, err := [] } ∧
    main treeSys 5 sample_tree ["gls".toList, "root".toList, "-hh".toList, "-h".toList]
      = main treeSys 5 sample_tree ["gls".toList, "-h".toList, "root".toList] :=
  ⟨by decide, by decide, by decide, by decide, by decide,
    (main_selects_options treeSys 5 sample_tree "gls".toList ["-h".toList, "root".toList]
      (by decide) (by decide)).2.2.1.trans rfl,
    (main_selects_options treeSys 5 sample_tree "gls".toList ["-h".toList, "root".toList]
      (by decide) (by decide)).2.2.2.2 "gls".toList
      ["root".toList, "-hh".toList, "-h".toList] (by decide) (by decide) (by decide)
      (by decide)⟩

end Gls
